import Mathlib

/-!
Verification of an open-addressing Robin Hood hash map (`hash_map.h`).

The C++ class `HashMap<KeyType, ValueType, Hash>` is shallowly embedded as the
structure `HashMap K V` below: each `std::vector` field becomes a `List`, each
member function becomes a Lean function on the structure.  The unbounded
`while` loops of the source (`GetKeyIndex`, `RobinHoodGetKeyIndex`,
`FixPosition`, the rebuild size loop, `clear`) are modelled with explicit fuel;
all theorems show that the fuel used by the public wrappers suffices on
reachable states (the loops terminate by reaching their real exit condition).
-/

set_option maxHeartbeats 1000000
set_option maxRecDepth 100000
set_option linter.unusedSectionVars false

namespace RobinHood

/-- Shallow embedding of the state of the C++ `HashMap` class: the hash
functor plus the seven data members. -/
structure HashMap (K V : Type) where
  hash : K → Nat
  size_ : Nat
  element_count_ : Nat
  data_ : List (K × V)
  psl_ : List Nat
  free_places_ : List Bool
  index_in_element_positions_ : List Nat
  element_positions_ : List Nat

namespace HashMap

variable {K V : Type} [DecidableEq K] [Inhabited K] [Inhabited V]

/-- `static const std::size_t DEFAULT_SIZE = 64`. -/
def DEFAULT_SIZE : Nat := 64

/-- `static const std::size_t MAX_LOAD_FACTOR = 80` (percents). -/
def MAX_LOAD_FACTOR : Nat := 80

/-- `static const std::size_t MAX_LOAD_FACTOR_ON_REBUILD = 50`. -/
def MAX_LOAD_FACTOR_ON_REBUILD : Nat := 50

/-- `static const std::size_t SIZE_INCREASING_ON_REBUILD = 4`. -/
def SIZE_INCREASING_ON_REBUILD : Nat := 4

/-- `Init(size)`: reset every array to its fresh contents at capacity `size`. -/
def Init (s : HashMap K V) (size : Nat) : HashMap K V :=
  { s with
    size_ := size
    element_count_ := 0
    data_ := List.replicate size default
    psl_ := List.replicate size 0
    free_places_ := List.replicate size true
    index_in_element_positions_ := List.replicate size 0
    element_positions_ := [] }

/-- The default constructor `HashMap(hash)`: `Init(DEFAULT_SIZE)`. -/
def mkHashMap (hash : K → Nat) : HashMap K V :=
  Init { hash := hash, size_ := 0, element_count_ := 0, data_ := [],
         psl_ := [], free_places_ := [], index_in_element_positions_ := [],
         element_positions_ := [] } DEFAULT_SIZE

/-- `size()`. -/
def size (s : HashMap K V) : Nat := s.element_count_

/-- `empty()`. -/
def isEmptyMap (s : HashMap K V) : Bool := s.element_count_ == 0

/-- The loop body of `GetKeyIndex`: walk forward (with wraparound) while the
slot is occupied and holds a different key. -/
def getKeyIndexGo (s : HashMap K V) (k : K) : Nat → Nat → Nat
  | 0, i => i
  | fuel + 1, i =>
    if s.free_places_.getD i true then i
    else if (s.data_.getD i default).1 = k then i
    else
      let i' := i + 1
      getKeyIndexGo s k fuel (if i' = s.size_ then 0 else i')

/-- `GetKeyIndex(key)`: start at `hash(key) % size_`; the loop makes at most
`size_` steps before reaching a free slot or the key on a reachable table. -/
def GetKeyIndex (s : HashMap K V) (k : K) : Nat :=
  getKeyIndexGo s k s.size_ (s.hash k % s.size_)

/-- `InsertByIndex(i, key, value, psl)`. -/
def InsertByIndex (s : HashMap K V) (i : Nat) (k : K) (v : V) (psl : Nat) :
    HashMap K V :=
  if s.free_places_.getD i true then
    { s with
      element_count_ := s.element_count_ + 1
      index_in_element_positions_ :=
        s.index_in_element_positions_.set i s.element_positions_.length
      element_positions_ := s.element_positions_ ++ [i]
      free_places_ := s.free_places_.set i false
      data_ := s.data_.set i (k, v)
      psl_ := s.psl_.set i psl }
  else
    { s with data_ := s.data_.set i ((s.data_.getD i default).1, v) }

/-- `IsCoolLoad(size, load_factor)`: `element_count_ * 100 < load_factor * size`. -/
def IsCoolLoad (s : HashMap K V) (size : Nat) (load_factor : Nat) : Bool :=
  s.element_count_ * 100 < load_factor * size

/-- The `do { new_size *= 4 } while (!IsCoolLoad(new_size, 50))` loop of
`Rebuild`, with fuel. -/
def rebuildNewSizeGo (s : HashMap K V) : Nat → Nat → Nat
  | 0, ns => ns
  | fuel + 1, ns =>
    let ns' := ns * SIZE_INCREASING_ON_REBUILD
    if IsCoolLoad s ns' MAX_LOAD_FACTOR_ON_REBUILD then ns'
    else rebuildNewSizeGo s fuel ns'

/-- The new capacity computed at the top of `Rebuild`.  On every state with
`element_count_ ≤ size_` and `0 < size_` the loop stops after its first
iteration, so the fuel `element_count_ + 1` is irrelevant there. -/
def rebuildNewSize (s : HashMap K V) : Nat :=
  rebuildNewSizeGo s (s.element_count_ + 1) s.size_

/-- The loop body of `RobinHoodGetKeyIndex`: carry `to_insert` with probe
length `cp`; swap it with any resident whose stored probe length is smaller;
place the carried element at the first free slot. -/
def robinHoodGo (s : HashMap K V) :
    Nat → K × V → Nat → Option Nat → Nat → HashMap K V × Nat
  | 0, _, _, _, i => (s, i)
  | fuel + 1, c, cp, ans, i =>
    if s.free_places_.getD i true then
      (InsertByIndex s i c.1 c.2 cp, ans.getD i)
    else if s.psl_.getD i 0 < cp then
      let s' := { s with data_ := s.data_.set i c, psl_ := s.psl_.set i cp }
      let c' := s.data_.getD i default
      let cp' := s.psl_.getD i 0
      let i' := i + 1
      robinHoodGo s' fuel c' (cp' + 1) (some (ans.getD i))
        (if i' = s'.size_ then 0 else i')
    else
      let i' := i + 1
      robinHoodGo s fuel c (cp + 1) ans (if i' = s.size_ then 0 else i')

/-- `RobinHoodGetKeyIndex(key, value)`: the Robin Hood placement walk starting
at the home slot with probe length 1 and no recorded answer slot. -/
def RobinHoodGetKeyIndex (s : HashMap K V) (k : K) (v : V) :
    HashMap K V × Nat :=
  robinHoodGo s s.size_ (k, v) 1 none (s.hash k % s.size_)

/-- The drain/reset/re-insert body of `Rebuild`, parameterized by the insert
routine used for the re-insertion. -/
def rebuildCore (ins : HashMap K V → K → V → HashMap K V) (s : HashMap K V) :
    HashMap K V :=
  let new_size := rebuildNewSize s
  let elements := s.element_positions_.map fun i => s.data_.getD i default
  elements.foldl (fun t e => ins t e.1 e.2) (Init s new_size)

/-- `InsertElement(key, value)`: rebuild first when the 80% load check fails,
then run the Robin Hood placement.  `Rebuild` re-inserts through
`InsertElement` itself, hence the fuel. -/
def InsertElementF : Nat → HashMap K V → K → V → HashMap K V × Nat
  | 0, s, _, _ => (s, 0)
  | fuel + 1, s, k, v =>
    let s' :=
      if IsCoolLoad s s.size_ MAX_LOAD_FACTOR then s
      else rebuildCore (fun t a b => (InsertElementF fuel t a b).1) s
    RobinHoodGetKeyIndex s' k v

/-- `Rebuild()`, re-inserting through `InsertElementF fuel`. -/
def RebuildF (fuel : Nat) (s : HashMap K V) : HashMap K V :=
  rebuildCore (fun t a b => (InsertElementF fuel t a b).1) s

/-- `SwapInElementPositions(i, j)`: swap two entries of `element_positions_`
and the corresponding two entries of `index_in_element_positions_`. -/
def SwapInElementPositions (s : HashMap K V) (i j : Nat) : HashMap K V :=
  let pi := s.element_positions_.getD i 0
  let pj := s.element_positions_.getD j 0
  { s with
    index_in_element_positions_ :=
      (s.index_in_element_positions_.set pi
        (s.index_in_element_positions_.getD pj 0)).set pj
        (s.index_in_element_positions_.getD pi 0)
    element_positions_ := (s.element_positions_.set i pj).set j pi }

/-- `DeleteElementByPosition(position, false)`: free the slot, swap-remove it
from the iteration index, decrement the count — without chain repair. -/
def DeleteNoFix (s : HashMap K V) (position : Nat) : HashMap K V :=
  let i := s.index_in_element_positions_.getD position 0
  let s₁ := { s with free_places_ := s.free_places_.set position true }
  let back := s₁.element_positions_.length - 1
  let s₂ := SwapInElementPositions s₁ i back
  { s₂ with
    element_positions_ := s₂.element_positions_.dropLast
    element_count_ := s₂.element_count_ - 1 }

/-- The eviction loop of `FixPosition`: walk forward from `i` while slots are
occupied, queueing each resident and freeing its slot. -/
def fixCollectGo (s : HashMap K V) :
    Nat → Nat → List (K × V) → HashMap K V × List (K × V)
  | 0, _, acc => (s, acc)
  | fuel + 1, i, acc =>
    if s.free_places_.getD i true then (s, acc)
    else
      let e := s.data_.getD i default
      let s' := DeleteNoFix s i
      let i' := i + 1
      fixCollectGo s' fuel (if i' = s'.size_ then 0 else i') (acc ++ [e])

/-- `FixPosition(position)`: evict the contiguous occupied run after the freed
slot, then re-insert every evicted element through `InsertElement`. -/
def FixPositionF (fuel : Nat) (s : HashMap K V) (position : Nat) :
    HashMap K V :=
  let i := position + 1
  let i₀ := if i = s.size_ then 0 else i
  let r := fixCollectGo s s.size_ i₀ []
  r.2.foldl (fun t e => (InsertElementF fuel t e.1 e.2).1) r.1

/-- `DeleteElementByPosition(position)` with `need_fix = true`. -/
def DeleteElementByPositionF (fuel : Nat) (s : HashMap K V) (position : Nat) :
    HashMap K V :=
  FixPositionF fuel (DeleteNoFix s position) position

/-- `DeleteElementByIndex(i)`. -/
def DeleteElementByIndexF (fuel : Nat) (s : HashMap K V) (i : Nat) :
    HashMap K V :=
  DeleteElementByPositionF fuel s (s.element_positions_.getD i 0)

/-- Public `insert(element)`: no-op when `GetKeyIndex` lands on an occupied
slot (the key is present), otherwise `InsertElement`. -/
def insert (s : HashMap K V) (e : K × V) : HashMap K V :=
  let i := GetKeyIndex s e.1
  if s.free_places_.getD i true then (InsertElementF 2 s e.1 e.2).1 else s

/-- Public `erase(key)`: no-op when `GetKeyIndex` lands on a free slot,
otherwise `DeleteElementByPosition`. -/
def erase (s : HashMap K V) (k : K) : HashMap K V :=
  let i := GetKeyIndex s k
  if s.free_places_.getD i true then s else DeleteElementByPositionF 2 s i

/-- The index stored inside the iterator returned by `find(key)`: the position
of the entry inside `element_positions_`, or the end index when absent.
Iterators compare by this index alone. -/
def find (s : HashMap K V) (k : K) : Nat :=
  let i := GetKeyIndex s k
  if s.free_places_.getD i true then s.element_positions_.length
  else s.index_in_element_positions_.getD i 0

/-- The index stored inside the `end()` iterator. -/
def endIter (s : HashMap K V) : Nat := s.element_positions_.length

/-- `at(key)`: `some value` when found, `none` for the thrown
`std::out_of_range` ("NotFoundError"). -/
def at? (s : HashMap K V) (k : K) : Option V :=
  let i := GetKeyIndex s k
  if s.free_places_.getD i true then none
  else some (s.data_.getD i default).2

/-- `operator[](key)`: insert a default value when absent; return the new
state together with the referenced value. -/
def getOrInsert (s : HashMap K V) (k : K) : HashMap K V × V :=
  let i := GetKeyIndex s k
  if s.free_places_.getD i true then
    let r := InsertElementF 2 s k default
    (r.1, (r.1.data_.getD r.2 default).2)
  else (s, (s.data_.getD i default).2)

/-- The `while (!element_positions_.empty()) DeleteElementByIndex(0)` loop of
`clear`, with fuel. -/
def clearGo : Nat → HashMap K V → HashMap K V
  | 0, s => s
  | fuel + 1, s =>
    if s.element_positions_.isEmpty then s
    else clearGo fuel (DeleteElementByIndexF 2 s 0)

/-- Public `clear()`; `element_count_` steps suffice on reachable states. -/
def clear (s : HashMap K V) : HashMap K V := clearGo s.element_count_ s

/-- The keys produced by iterating from `begin()` to `end()`: iterator index
`t` dereferences to `data_[element_positions_[t]]`. -/
def iterKeys (s : HashMap K V) : List K :=
  s.element_positions_.map fun p => (s.data_.getD p default).1

/-- Slot `i` is occupied. -/
def Occ (s : HashMap K V) (i : Nat) : Prop :=
  s.free_places_.getD i true = false

/-- The key stored at slot `i`. -/
def keyAt (s : HashMap K V) (i : Nat) : K := (s.data_.getD i default).1

/-- The value stored at slot `i`. -/
def valAt (s : HashMap K V) (i : Nat) : V := (s.data_.getD i default).2

/-- The stored probe length of slot `i`. -/
def pslAt (s : HashMap K V) (i : Nat) : Nat := s.psl_.getD i 0

/-- The home slot of a key. -/
def home (s : HashMap K V) (k : K) : Nat := s.hash k % s.size_

/-- Some occupied slot holds the binding `(k, v)`. -/
def HasKeyVal (s : HashMap K V) (k : K) (v : V) : Prop :=
  ∃ i, i < s.size_ ∧ Occ s i ∧ keyAt s i = k ∧ valAt s i = v

/-- Some occupied slot holds the key `k`. -/
def HasKey (s : HashMap K V) (k : K) : Prop :=
  ∃ i, i < s.size_ ∧ Occ s i ∧ keyAt s i = k

/-- Whether `find(key)` succeeds: `GetKeyIndex` lands on an occupied slot. -/
def containsKey (s : HashMap K V) (k : K) : Bool :=
  !(s.free_places_.getD (GetKeyIndex s k) true)

/-! ### The representation invariant -/

/-- Every occupied slot has its whole probe path (from its home slot to its
current slot) occupied; this is what makes `GetKeyIndex`'s stop-at-free scan
complete. -/
def PathOcc (s : HashMap K V) : Prop :=
  ∀ i, i < s.size_ → Occ s i →
    ∀ d, d < pslAt s i → Occ s ((home s (keyAt s i) + d) % s.size_)

/-- The structural part of the invariant: array lengths, the
count/positions/occupancy correspondence, the iteration-index inverse, the
at-rest load bound, per-slot probe-length consistency and key distinctness.
It survives the intermediate states of deletion, unlike `PathOcc`. -/
structure Base (s : HashMap K V) : Prop where
  size_ge : 64 ≤ s.size_
  data_len : s.data_.length = s.size_
  psl_len : s.psl_.length = s.size_
  free_len : s.free_places_.length = s.size_
  idx_len : s.index_in_element_positions_.length = s.size_
  count_eq : s.element_count_ = s.element_positions_.length
  load : s.element_count_ * 100 < 80 * s.size_ + 100
  pos_lt : ∀ p ∈ s.element_positions_, p < s.size_
  pos_nodup : s.element_positions_.Nodup
  pos_occ : ∀ p ∈ s.element_positions_, Occ s p
  occ_pos : ∀ i, i < s.size_ → Occ s i → i ∈ s.element_positions_
  idx_inv : ∀ t, t < s.element_positions_.length →
    s.index_in_element_positions_.getD (s.element_positions_.getD t 0) 0 = t
  psl_pos : ∀ i, i < s.size_ → Occ s i → 1 ≤ pslAt s i
  path_end : ∀ i, i < s.size_ → Occ s i →
    i = (home s (keyAt s i) + (pslAt s i - 1)) % s.size_
  keys_inj : ∀ i j, i < s.size_ → j < s.size_ → Occ s i → Occ s j →
    keyAt s i = keyAt s j → i = j

/-- The full representation invariant. -/
structure Inv (s : HashMap K V) : Prop where
  base : Base s
  path : PathOcc s

instance occDecidable (s : HashMap K V) (i : Nat) : Decidable (Occ s i) := by
  unfold Occ
  infer_instance

/-! ### Reachable states -/

/-- The states reachable from the default constructor through the public
mutating operations. -/
inductive Reachable : HashMap K V → Prop where
  | fresh (hash : K → Nat) : Reachable (mkHashMap hash)
  | ins (s : HashMap K V) (e : K × V) : Reachable s → Reachable (insert s e)
  | ers (s : HashMap K V) (k : K) : Reachable s → Reachable (erase s k)
  | idx (s : HashMap K V) (k : K) : Reachable s →
      Reachable ((getOrInsert s k).1)
  | clr (s : HashMap K V) : Reachable s → Reachable (clear s)

end HashMap

end RobinHood

namespace RobinHood

/-! ### List and modular-arithmetic helpers -/

theorem getD_set_self {α : Type} (l : List α) (i : Nat) (a d : α)
    (h : i < l.length) : (l.set i a).getD i d = a := by
  rw [List.getD_eq_getElem?_getD, List.getElem?_set_self]
  · simp
  · simpa using h

theorem getD_set_ne {α : Type} (l : List α) (i j : Nat) (a d : α)
    (h : i ≠ j) : (l.set i a).getD j d = l.getD j d := by
  rw [List.getD_eq_getElem?_getD, List.getElem?_set_ne h,
    ← List.getD_eq_getElem?_getD]

theorem getD_replicate {α : Type} (n i : Nat) (a d : α) (h : i < n) :
    (List.replicate n a).getD i d = a := by
  rw [List.getD_eq_getElem?_getD, List.getElem?_replicate]
  simp [h]

theorem getD_append_left {α : Type} (l : List α) (x d : α) (i : Nat)
    (h : i < l.length) : (l ++ [x]).getD i d = l.getD i d := by
  rw [List.getD_eq_getElem?_getD, List.getElem?_append_left h,
    ← List.getD_eq_getElem?_getD]

theorem getD_append_len {α : Type} (l : List α) (x d : α) :
    (l ++ [x]).getD l.length d = x := by
  rw [List.getD_eq_getElem?_getD]
  simp

theorem getD_of_le {α : Type} (l : List α) (d : α) (i : Nat)
    (h : l.length ≤ i) : l.getD i d = d := by
  rw [List.getD_eq_getElem?_getD, List.getElem?_eq_none h]
  rfl

theorem getD_mem {α : Type} (l : List α) (i : Nat) (d : α)
    (h : i < l.length) : l.getD i d ∈ l := by
  rw [List.getD_eq_getElem?_getD, List.getElem?_eq_getElem h]
  exact List.getElem_mem h

theorem modStep (i n : Nat) (hi : i < n) :
    (if i + 1 = n then 0 else i + 1) = (i + 1) % n := by
  by_cases h : i + 1 = n
  · simp [h, Nat.mod_self]
  · rw [if_neg h, Nat.mod_eq_of_lt (by omega)]

theorem modSucc (h d n : Nat) : ((h + d) % n + 1) % n = (h + (d + 1)) % n := by
  rw [Nat.mod_add_mod, Nat.add_assoc]

theorem modCover (j h n : Nat) (hh : h < n) (hj : j < n) :
    ∃ d, d < n ∧ (h + d) % n = j := by
  refine ⟨(j + n - h) % n, Nat.mod_lt _ (by omega), ?_⟩
  rw [Nat.add_mod_mod]
  have h2 : h + (j + n - h) = j + n := by omega
  rw [h2, Nat.add_mod_right, Nat.mod_eq_of_lt hj]

theorem modNe (a b h n : Nat) (ha : a < n) (hb : b < n) (hne : a ≠ b) :
    (h + a) % n ≠ (h + b) % n := by
  intro hc
  have h2 : a % n = b % n := Nat.ModEq.add_left_cancel' h hc
  rw [Nat.mod_eq_of_lt ha, Nat.mod_eq_of_lt hb] at h2
  exact hne h2

namespace HashMap

variable {K V : Type} [DecidableEq K] [Inhabited K] [Inhabited V]

theorem Base.size_pos {s : HashMap K V} (h : Base s) : 0 < s.size_ := by
  have := h.size_ge
  omega

theorem Base.count_lt {s : HashMap K V} (h : Base s) :
    s.element_count_ < s.size_ := by
  have h1 := h.load
  have h2 := h.size_ge
  omega

/-- Membership form of the iteration-index inverse: for every listed slot `p`,
`element_positions_[index_in_element_positions_[p]] = p`. -/
theorem Base.idx_mem {s : HashMap K V} (h : Base s) (p : Nat)
    (hp : p ∈ s.element_positions_) :
    s.index_in_element_positions_.getD p 0 < s.element_positions_.length ∧
    s.element_positions_.getD (s.index_in_element_positions_.getD p 0) 0 = p := by
  obtain ⟨t, ht, rfl⟩ := List.getElem_of_mem hp
  have hgd : s.element_positions_[t] = s.element_positions_.getD t 0 := by
    rw [List.getD_eq_getElem?_getD, List.getElem?_eq_getElem ht]
    rfl
  rw [hgd, h.idx_inv t ht]
  exact ⟨ht, rfl⟩

/-- A free slot always exists on a `Base` state. -/
theorem Base.exists_free {s : HashMap K V} (h : Base s) :
    ∃ f, f < s.size_ ∧ s.free_places_.getD f true = true := by
  by_contra hc
  push_neg at hc
  have hall : ∀ i, i < s.size_ → i ∈ s.element_positions_ := by
    intro i hi
    refine h.occ_pos i hi ?_
    have := hc i hi
    unfold Occ
    revert this
    cases s.free_places_.getD i true <;> simp
  have hsub : List.range s.size_ ⊆ s.element_positions_ := by
    intro i hi
    exact hall i (List.mem_range.mp hi)
  have hsp := (List.nodup_range s.size_).subperm hsub
  have hlen := hsp.length_le
  rw [List.length_range] at hlen
  have := h.count_lt
  have := h.count_eq
  omega

/-- Probe lengths never exceed the capacity on an invariant state. -/
theorem Inv.psl_le_size {s : HashMap K V} (h : Inv s) (i : Nat)
    (hi : i < s.size_) (ho : Occ s i) : pslAt s i ≤ s.size_ := by
  by_contra hc
  push_neg at hc
  obtain ⟨f, hf, hfree⟩ := h.base.exists_free
  obtain ⟨d, hd, hdf⟩ := modCover f (home s (keyAt s i)) s.size_
    (Nat.mod_lt _ h.base.size_pos) hf
  have hocc := h.path i hi ho d (by omega)
  rw [hdf] at hocc
  rw [hocc] at hfree
  cases hfree

end HashMap

end RobinHood

namespace RobinHood.HashMap

variable {K V : Type} [DecidableEq K] [Inhabited K] [Inhabited V]

theorem not_occ_iff_free {s : HashMap K V} {i : Nat} :
    ¬ Occ s i ↔ s.free_places_.getD i true = true := by
  unfold Occ
  cases s.free_places_.getD i true <;> simp

/-! ### The fresh state -/

theorem not_occ_Init (s : HashMap K V) (m i : Nat) : ¬ Occ (Init s m) i := by
  rw [not_occ_iff_free]
  show (List.replicate m true).getD i true = true
  by_cases h : i < m
  · rw [getD_replicate _ _ _ _ h]
  · rw [getD_of_le]
    rw [List.length_replicate]
    omega

theorem init_inv (s : HashMap K V) (m : Nat) (hm : 64 ≤ m) : Inv (Init s m) := by
  constructor
  · constructor
    · exact hm
    · exact List.length_replicate m default
    · exact List.length_replicate m 0
    · exact List.length_replicate m true
    · exact List.length_replicate m 0
    · rfl
    · show 0 * 100 < 80 * m + 100
      omega
    · intro p hp
      cases hp
    · exact List.nodup_nil
    · intro p hp
      cases hp
    · intro i _ hocc
      exact absurd hocc (not_occ_Init s m i)
    · intro t ht
      cases ht
    · intro i _ hocc
      exact absurd hocc (not_occ_Init s m i)
    · intro i _ hocc
      exact absurd hocc (not_occ_Init s m i)
    · intro i j _ _ hocc
      exact absurd hocc (not_occ_Init s m i)
  · intro i _ hocc
    exact absurd hocc (not_occ_Init s m i)

theorem mkHashMap_inv (hash : K → Nat) : Inv (mkHashMap hash : HashMap K V) :=
  init_inv _ _ (le_refl 64)

theorem not_hasKey_Init (s : HashMap K V) (m : Nat) (k : K) :
    ¬ HasKey (Init s m) k := by
  rintro ⟨i, _, hocc, _⟩
  exact not_occ_Init s m i hocc

theorem not_hasKeyVal_Init (s : HashMap K V) (m : Nat) (k : K) (v : V) :
    ¬ HasKeyVal (Init s m) k v := by
  rintro ⟨i, _, hocc, _⟩
  exact not_occ_Init s m i hocc

theorem not_hasKey_mk (hash : K → Nat) (k : K) :
    ¬ HasKey (mkHashMap hash : HashMap K V) k :=
  not_hasKey_Init _ _ k

theorem not_hasKeyVal_mk (hash : K → Nat) (k : K) (v : V) :
    ¬ HasKeyVal (mkHashMap hash) k v :=
  not_hasKeyVal_Init _ _ k v

/-! ### Correctness of the `GetKeyIndex` probe walk -/

theorem getKeyIndexGo_spec (s : HashMap K V) (k : K) :
    ∀ (m fuel start : Nat), start < s.size_ → m < fuel →
    (∀ d, d < m → Occ s ((start + d) % s.size_) ∧
      keyAt s ((start + d) % s.size_) ≠ k) →
    (s.free_places_.getD ((start + m) % s.size_) true = true ∨
      keyAt s ((start + m) % s.size_) = k) →
    getKeyIndexGo s k fuel start = (start + m) % s.size_ := by
  intro m
  induction m with
  | zero =>
    intro fuel start hstart hfuel _ hstop
    cases fuel with
    | zero => omega
    | succ f =>
      have hs0 : (start + 0) % s.size_ = start := by
        rw [Nat.add_zero, Nat.mod_eq_of_lt hstart]
      rw [hs0] at hstop ⊢
      show (if s.free_places_.getD start true then start
        else if (s.data_.getD start default).1 = k then start
        else getKeyIndexGo s k f
          (if start + 1 = s.size_ then 0 else start + 1)) = start
      rcases hstop with hfree | hkey
      · rw [if_pos hfree]
      · by_cases hfree : s.free_places_.getD start true = true
        · rw [if_pos hfree]
        · have hkey' : (s.data_.getD start default).1 = k := hkey
          rw [if_neg hfree, if_pos hkey']
  | succ m ih =>
    intro fuel start hstart hfuel hwalk hstop
    cases fuel with
    | zero => omega
    | succ f =>
      obtain ⟨hocc, hkne⟩ := hwalk 0 (Nat.succ_pos m)
      have hs0 : (start + 0) % s.size_ = start := by
        rw [Nat.add_zero, Nat.mod_eq_of_lt hstart]
      rw [hs0] at hocc hkne
      show (if s.free_places_.getD start true then start
        else if (s.data_.getD start default).1 = k then start
        else getKeyIndexGo s k f
          (if start + 1 = s.size_ then 0 else start + 1)) = _
      have hkne' : ¬ ((s.data_.getD start default).1 = k) := hkne
      rw [if_neg (by rw [hocc]; exact Bool.false_ne_true),
        if_neg hkne', modStep start s.size_ hstart]
      have hlt : (start + 1) % s.size_ < s.size_ := Nat.mod_lt _ (by omega)
      have harith : ∀ d : Nat,
          ((start + 1) % s.size_ + d) % s.size_ = (start + (d + 1)) % s.size_ := by
        intro d
        rw [Nat.mod_add_mod]
        congr 1
        omega
      rw [ih f ((start + 1) % s.size_) hlt (by omega) ?_ ?_]
      · rw [harith m]
      · intro d hd
        rw [harith d]
        exact hwalk (d + 1) (by omega)
      · rw [harith m]
        exact hstop

theorem getKeyIndex_found {s : HashMap K V} (h : Inv s) {k : K} (j : Nat)
    (hj : j < s.size_) (ho : Occ s j) (hk : keyAt s j = k) :
    GetKeyIndex s k = j := by
  have hpos : 0 < s.size_ := h.base.size_pos
  have hpsl1 := h.base.psl_pos j hj ho
  have hpsl := h.psl_le_size j hj ho
  have hend := h.base.path_end j hj ho
  rw [hk] at hend
  have hstart : s.hash k % s.size_ < s.size_ := Nat.mod_lt _ hpos
  have hhome : home s k = s.hash k % s.size_ := rfl
  rw [GetKeyIndex, getKeyIndexGo_spec s k (pslAt s j - 1) s.size_
    (s.hash k % s.size_) hstart (by omega) ?_ ?_]
  · rw [← hhome, ← hend]
  · intro d hd
    have hdp : d < pslAt s j := by omega
    have hocc := h.path j hj ho d hdp
    rw [hk, hhome] at hocc
    refine ⟨hocc, ?_⟩
    intro hkey
    have hlt : (s.hash k % s.size_ + d) % s.size_ < s.size_ := Nat.mod_lt _ hpos
    have heq := h.base.keys_inj _ j hlt hj hocc ho (by rw [hkey, hk])
    rw [hend, hhome] at heq
    exact modNe d (pslAt s j - 1) (s.hash k % s.size_) s.size_
      (by omega) (by omega) (by omega) heq
  · right
    rw [← hhome, ← hend, hk]

theorem getKeyIndex_absent {s : HashMap K V} (h : Inv s) (k : K)
    (habs : ¬ HasKey s k) :
    GetKeyIndex s k < s.size_ ∧
    s.free_places_.getD (GetKeyIndex s k) true = true := by
  have hpos : 0 < s.size_ := h.base.size_pos
  have hstart : s.hash k % s.size_ < s.size_ := Nat.mod_lt _ hpos
  obtain ⟨f, hf, hfree⟩ := h.base.exists_free
  obtain ⟨d₀, hd₀, hd₀f⟩ := modCover f (s.hash k % s.size_) s.size_ hstart hf
  have hex : ∃ d, s.free_places_.getD
      ((s.hash k % s.size_ + d) % s.size_) true = true := ⟨d₀, by rw [hd₀f]; exact hfree⟩
  set m := Nat.find hex with hm
  have hmlt : m < s.size_ := lt_of_le_of_lt (Nat.find_min' hex (by rw [hd₀f]; exact hfree)) hd₀
  have hspec := Nat.find_spec hex
  rw [GetKeyIndex, getKeyIndexGo_spec s k m s.size_ (s.hash k % s.size_)
    hstart (by omega) ?_ (Or.inl hspec)]
  · exact ⟨Nat.mod_lt _ hpos, hspec⟩
  · intro d hd
    have hnm := Nat.find_min hex hd
    constructor
    · unfold Occ
      revert hnm
      cases s.free_places_.getD ((s.hash k % s.size_ + d) % s.size_) true <;> simp
    · intro hkey
      exact habs ⟨_, Nat.mod_lt _ hpos, by
        unfold Occ
        revert hnm
        cases s.free_places_.getD ((s.hash k % s.size_ + d) % s.size_) true <;> simp, hkey⟩

end RobinHood.HashMap

namespace RobinHood.HashMap

variable {K V : Type} [DecidableEq K] [Inhabited K] [Inhabited V]

theorem at?_def (s : HashMap K V) (k : K) :
    at? s k = if s.free_places_.getD (GetKeyIndex s k) true = true then none
      else some (valAt s (GetKeyIndex s k)) := rfl

theorem find_def (s : HashMap K V) (k : K) :
    find s k = if s.free_places_.getD (GetKeyIndex s k) true = true then
      s.element_positions_.length
      else s.index_in_element_positions_.getD (GetKeyIndex s k) 0 := rfl

theorem hasKey_iff (s : HashMap K V) (k : K) :
    HasKey s k ↔ ∃ v, HasKeyVal s k v := by
  constructor
  · rintro ⟨i, hi, ho, hk⟩
    exact ⟨valAt s i, i, hi, ho, hk, rfl⟩
  · rintro ⟨v, i, hi, ho, hk, _⟩
    exact ⟨i, hi, ho, hk⟩

theorem at?_eq_some_iff {s : HashMap K V} (h : Inv s) (k : K) (v : V) :
    at? s k = some v ↔ HasKeyVal s k v := by
  constructor
  · intro hv
    by_cases hk : HasKey s k
    · obtain ⟨j, hj, ho, hkey⟩ := hk
      rw [at?_def, getKeyIndex_found h j hj ho hkey,
        if_neg (by rw [ho]; exact Bool.false_ne_true)] at hv
      exact ⟨j, hj, ho, hkey, (Option.some_inj.mp hv)⟩
    · obtain ⟨_, hfree⟩ := getKeyIndex_absent h k hk
      rw [at?_def, if_pos hfree] at hv
      cases hv
  · rintro ⟨j, hj, ho, hkey, hval⟩
    rw [at?_def, getKeyIndex_found h j hj ho hkey,
      if_neg (by rw [ho]; exact Bool.false_ne_true), hval]

theorem at?_eq_none_iff {s : HashMap K V} (h : Inv s) (k : K) :
    at? s k = none ↔ ¬ HasKey s k := by
  constructor
  · intro hv hk
    obtain ⟨j, hj, ho, hkey⟩ := hk
    rw [at?_def, getKeyIndex_found h j hj ho hkey,
      if_neg (by rw [ho]; exact Bool.false_ne_true)] at hv
    cases hv
  · intro hk
    obtain ⟨_, hfree⟩ := getKeyIndex_absent h k hk
    rw [at?_def, if_pos hfree]

theorem find_of_hasKey {s : HashMap K V} (h : Inv s) {k : K}
    (hk : HasKey s k) : find s k < endIter s := by
  obtain ⟨j, hj, ho, hkey⟩ := hk
  rw [find_def, getKeyIndex_found h j hj ho hkey,
    if_neg (by rw [ho]; exact Bool.false_ne_true)]
  exact (h.base.idx_mem j (h.base.occ_pos j hj ho)).1

theorem find_of_absent {s : HashMap K V} (h : Inv s) {k : K}
    (hk : ¬ HasKey s k) : find s k = endIter s := by
  obtain ⟨_, hfree⟩ := getKeyIndex_absent h k hk
  rw [find_def, if_pos hfree]
  rfl

theorem find_ne_end_iff {s : HashMap K V} (h : Inv s) (k : K) :
    find s k ≠ endIter s ↔ HasKey s k := by
  constructor
  · intro hne
    by_contra hk
    exact hne (find_of_absent h hk)
  · intro hk
    exact Nat.ne_of_lt (find_of_hasKey h hk)

/-! ### `InsertByIndex` at a free slot -/

theorem insertByIndex_spec {s : HashMap K V} (h : Inv s) {f : Nat} {k : K}
    {v : V} {p : Nat}
    (hf : f < s.size_) (hfree : s.free_places_.getD f true = true)
    (hcool : s.element_count_ * 100 < 80 * s.size_)
    (habs : ∀ j, j < s.size_ → Occ s j → keyAt s j ≠ k)
    (hp1 : 1 ≤ p)
    (hpend : f = (home s k + (p - 1)) % s.size_)
    (hppath : ∀ d, d < p - 1 → Occ s ((home s k + d) % s.size_)) :
    Inv (InsertByIndex s f k v p) ∧
    (InsertByIndex s f k v p).size_ = s.size_ ∧
    (InsertByIndex s f k v p).hash = s.hash ∧
    (InsertByIndex s f k v p).element_count_ = s.element_count_ + 1 ∧
    (InsertByIndex s f k v p).element_positions_ =
      s.element_positions_ ++ [f] ∧
    (∀ k' v', HasKeyVal (InsertByIndex s f k v p) k' v' ↔
      (HasKeyVal s k' v' ∨ (k' = k ∧ v' = v))) := by
  have hB := h.base
  have ht : InsertByIndex s f k v p =
      { s with
        element_count_ := s.element_count_ + 1
        index_in_element_positions_ :=
          s.index_in_element_positions_.set f s.element_positions_.length
        element_positions_ := s.element_positions_ ++ [f]
        free_places_ := s.free_places_.set f false
        data_ := s.data_.set f (k, v)
        psl_ := s.psl_.set f p } := by
    unfold InsertByIndex
    rw [if_pos hfree]
  set t := InsertByIndex s f k v p with htdef
  have hsize : t.size_ = s.size_ := by rw [ht]
  have hhash : t.hash = s.hash := by rw [ht]
  have hcount : t.element_count_ = s.element_count_ + 1 := by rw [ht]
  have hpositions : t.element_positions_ = s.element_positions_ ++ [f] := by
    rw [ht]
  have hflen : f < s.free_places_.length := by rw [hB.free_len]; exact hf
  have hdlen : f < s.data_.length := by rw [hB.data_len]; exact hf
  have hplen : f < s.psl_.length := by rw [hB.psl_len]; exact hf
  have hilen : f < s.index_in_element_positions_.length := by
    rw [hB.idx_len]; exact hf
  have hofree : ¬ Occ s f := by
    rw [not_occ_iff_free]; exact hfree
  have hoccf : Occ t f := by
    show t.free_places_.getD f true = false
    rw [ht]
    exact getD_set_self _ _ _ _ hflen
  have hocc_ne : ∀ j, j ≠ f → (Occ t j ↔ Occ s j) := by
    intro j hj
    show t.free_places_.getD j true = false ↔ _
    rw [ht]
    show (s.free_places_.set f false).getD j true = false ↔ _
    rw [getD_set_ne _ _ _ _ _ (fun hh => hj hh.symm)]
    exact Iff.rfl
  have hocc_mono : ∀ j, Occ s j → Occ t j := by
    intro j hj
    by_cases hjf : j = f
    · rw [hjf]; exact hoccf
    · exact (hocc_ne j hjf).mpr hj
  have hkeyf : keyAt t f = k := by
    show (t.data_.getD f default).1 = k
    rw [ht]
    show ((s.data_.set f (k, v)).getD f default).1 = k
    rw [getD_set_self _ _ _ _ hdlen]
  have hvalf : valAt t f = v := by
    show (t.data_.getD f default).2 = v
    rw [ht]
    show ((s.data_.set f (k, v)).getD f default).2 = v
    rw [getD_set_self _ _ _ _ hdlen]
  have hpslf : pslAt t f = p := by
    show t.psl_.getD f 0 = p
    rw [ht]
    show (s.psl_.set f p).getD f 0 = p
    rw [getD_set_self _ _ _ _ hplen]
  have hkey_ne : ∀ j, j ≠ f → keyAt t j = keyAt s j := by
    intro j hj
    show (t.data_.getD j default).1 = _
    rw [ht]
    show ((s.data_.set f (k, v)).getD j default).1 = _
    rw [getD_set_ne _ _ _ _ _ (fun hh => hj hh.symm)]
    rfl
  have hval_ne : ∀ j, j ≠ f → valAt t j = valAt s j := by
    intro j hj
    show (t.data_.getD j default).2 = _
    rw [ht]
    show ((s.data_.set f (k, v)).getD j default).2 = _
    rw [getD_set_ne _ _ _ _ _ (fun hh => hj hh.symm)]
    rfl
  have hpsl_ne : ∀ j, j ≠ f → pslAt t j = pslAt s j := by
    intro j hj
    show t.psl_.getD j 0 = _
    rw [ht]
    show (s.psl_.set f p).getD j 0 = _
    rw [getD_set_ne _ _ _ _ _ (fun hh => hj hh.symm)]
    rfl
  have hhome : ∀ k' : K, home t k' = home s k' := by
    intro k'
    show t.hash k' % t.size_ = _
    rw [hhash, hsize]
    rfl
  have hfnotpos : f ∉ s.element_positions_ := by
    intro hmem
    exact hofree (hB.pos_occ f hmem)
  have hcontents : ∀ k' v', HasKeyVal t k' v' ↔
      (HasKeyVal s k' v' ∨ (k' = k ∧ v' = v)) := by
    intro k' v'
    constructor
    · rintro ⟨j, hj, ho, hkey, hval⟩
      rw [hsize] at hj
      by_cases hjf : j = f
      · right
        rw [hjf] at hkey hval
        rw [hkeyf] at hkey
        rw [hvalf] at hval
        exact ⟨hkey.symm, hval.symm⟩
      · left
        exact ⟨j, hj, (hocc_ne j hjf).mp ho, by rw [← hkey_ne j hjf]; exact hkey,
          by rw [← hval_ne j hjf]; exact hval⟩
    · rintro (⟨j, hj, ho, hkey, hval⟩ | ⟨hkey, hval⟩)
      · have hjf : j ≠ f := by
          intro hh
          rw [hh] at ho
          exact hofree ho
        exact ⟨j, by rw [hsize]; exact hj, (hocc_ne j hjf).mpr ho,
          by rw [hkey_ne j hjf]; exact hkey, by rw [hval_ne j hjf]; exact hval⟩
      · exact ⟨f, by rw [hsize]; exact hf, hoccf, by rw [hkeyf, hkey],
          by rw [hvalf, hval]⟩
  refine ⟨⟨⟨?_, ?_, ?_, ?_, ?_, ?_, ?_, ?_, ?_, ?_, ?_, ?_, ?_, ?_, ?_⟩, ?_⟩,
    hsize, hhash, hcount, hpositions, hcontents⟩
  · rw [hsize]; exact hB.size_ge
  · rw [ht]
    show (s.data_.set f (k, v)).length = _
    rw [List.length_set, hB.data_len]
  · rw [ht]
    show (s.psl_.set f p).length = _
    rw [List.length_set, hB.psl_len]
  · rw [ht]
    show (s.free_places_.set f false).length = _
    rw [List.length_set, hB.free_len]
  · rw [ht]
    show (s.index_in_element_positions_.set f _).length = _
    rw [List.length_set, hB.idx_len]
  · rw [hcount, hpositions, List.length_append, hB.count_eq]
    rfl
  · rw [hcount, hsize]
    omega
  · rw [hpositions, hsize]
    intro q hq
    rcases List.mem_append.mp hq with hq | hq
    · exact hB.pos_lt q hq
    · rw [List.mem_singleton.mp hq]
      exact hf
  · rw [hpositions]
    rw [List.nodup_append]
    exact ⟨hB.pos_nodup, List.nodup_singleton f, by
      intro q hq hq2
      rw [List.mem_singleton.mp hq2] at hq
      exact hfnotpos hq⟩
  · rw [hpositions]
    intro q hq
    rcases List.mem_append.mp hq with hq | hq
    · exact hocc_mono q (hB.pos_occ q hq)
    · rw [List.mem_singleton.mp hq]
      exact hoccf
  · rw [hsize, hpositions]
    intro j hj ho
    by_cases hjf : j = f
    · rw [hjf]
      exact List.mem_append.mpr (Or.inr (List.mem_singleton.mpr rfl))
    · exact List.mem_append.mpr (Or.inl (hB.occ_pos j hj ((hocc_ne j hjf).mp ho)))
  · rw [hpositions, List.length_append]
    intro u hu
    simp only [List.length_singleton] at hu
    by_cases hul : u < s.element_positions_.length
    · rw [getD_append_left _ _ _ _ hul]
      have hq := getD_mem s.element_positions_ u 0 hul
      have hqf : s.element_positions_.getD u 0 ≠ f := by
        intro hh
        rw [hh] at hq
        exact hfnotpos hq
      rw [ht]
      show (s.index_in_element_positions_.set f _).getD _ 0 = u
      rw [getD_set_ne _ _ _ _ _ (fun hh => hqf hh.symm)]
      exact hB.idx_inv u hul
    · have hu1 : u = s.element_positions_.length := by omega
      rw [hu1, getD_append_len]
      rw [ht]
      show (s.index_in_element_positions_.set f s.element_positions_.length).getD f 0
        = s.element_positions_.length
      rw [getD_set_self _ _ _ _ hilen]
  · rw [hsize]
    intro j hj ho
    by_cases hjf : j = f
    · rw [hjf, hpslf]
      exact hp1
    · rw [hpsl_ne j hjf]
      exact hB.psl_pos j hj ((hocc_ne j hjf).mp ho)
  · rw [hsize]
    intro j hj ho
    by_cases hjf : j = f
    · rw [hjf, hpslf, hkeyf, hhome]
      exact hpend
    · rw [hpsl_ne j hjf, hkey_ne j hjf, hhome]
      exact hB.path_end j hj ((hocc_ne j hjf).mp ho)
  · rw [hsize]
    intro i j hi hj hoi hoj hkeq
    by_cases hif : i = f <;> by_cases hjf : j = f
    · rw [hif, hjf]
    · rw [hif, hkeyf, hkey_ne j hjf] at hkeq
      exact absurd hkeq.symm
        (habs j hj ((hocc_ne j hjf).mp hoj))
    · rw [hjf, hkeyf, hkey_ne i hif] at hkeq
      exact absurd hkeq (habs i hi ((hocc_ne i hif).mp hoi))
    · rw [hkey_ne i hif, hkey_ne j hjf] at hkeq
      exact hB.keys_inj i j hi hj ((hocc_ne i hif).mp hoi)
        ((hocc_ne j hjf).mp hoj) hkeq
  · rw [PathOcc, hsize]
    intro j hj ho d hd
    by_cases hjf : j = f
    · rw [hjf, hpslf] at hd
      rw [hjf, hkeyf, hhome]
      by_cases hdp : d < p - 1
      · exact hocc_mono _ (hppath d hdp)
      · have hdp1 : d = p - 1 := by omega
        rw [hdp1, ← hpend]
        exact hoccf
    · rw [hpsl_ne j hjf] at hd
      rw [hkey_ne j hjf, hhome]
      exact hocc_mono _ (h.path j hj ((hocc_ne j hjf).mp ho) d hd)

end RobinHood.HashMap

namespace RobinHood.HashMap

variable {K V : Type} [DecidableEq K] [Inhabited K] [Inhabited V]

/-! ### The Robin Hood placement walk -/

/-- Effect of one displacement swap inside `RobinHoodGetKeyIndex`: writing the
carried element over a resident with smaller stored probe length preserves the
invariant, exchanges the carried binding with the resident binding, and the
new carried key is absent from the table. -/
theorem robinHoodSwap_spec {s : HashMap K V} (h : Inv s) {i : Nat}
    {c : K × V} {cp : Nat}
    (hi : i < s.size_) (hocc : Occ s i) (hp1 : 1 ≤ cp)
    (hpend : i = (home s c.1 + (cp - 1)) % s.size_)
    (hppath : ∀ d, d < cp - 1 → Occ s ((home s c.1 + d) % s.size_))
    (habs : ∀ j, j < s.size_ → Occ s j → keyAt s j ≠ c.1) :
    Inv { s with data_ := s.data_.set i c, psl_ := s.psl_.set i cp } ∧
    (∀ k v, (HasKeyVal { s with data_ := s.data_.set i c, psl_ := s.psl_.set i cp } k v ∨
        (k = keyAt s i ∧ v = valAt s i)) ↔
      (HasKeyVal s k v ∨ (k = c.1 ∧ v = c.2))) ∧
    (∀ j, j < s.size_ → Occ s j →
      keyAt { s with data_ := s.data_.set i c, psl_ := s.psl_.set i cp } j ≠ keyAt s i) := by
  have hB := h.base
  set t : HashMap K V :=
    { s with data_ := s.data_.set i c, psl_ := s.psl_.set i cp } with htdef
  have hdlen : i < s.data_.length := by rw [hB.data_len]; exact hi
  have hplen : i < s.psl_.length := by rw [hB.psl_len]; exact hi
  have hocct : ∀ x, Occ t x ↔ Occ s x := fun x => Iff.rfl
  have hkeyi : keyAt t i = c.1 := by
    show ((s.data_.set i c).getD i default).1 = c.1
    rw [getD_set_self _ _ _ _ hdlen]
  have hvali : valAt t i = c.2 := by
    show ((s.data_.set i c).getD i default).2 = c.2
    rw [getD_set_self _ _ _ _ hdlen]
  have hpsli : pslAt t i = cp := by
    show (s.psl_.set i cp).getD i 0 = cp
    rw [getD_set_self _ _ _ _ hplen]
  have hkey_ne : ∀ j, j ≠ i → keyAt t j = keyAt s j := by
    intro j hj
    show ((s.data_.set i c).getD j default).1 = _
    rw [getD_set_ne _ _ _ _ _ (fun hh => hj hh.symm)]
    rfl
  have hval_ne : ∀ j, j ≠ i → valAt t j = valAt s j := by
    intro j hj
    show ((s.data_.set i c).getD j default).2 = _
    rw [getD_set_ne _ _ _ _ _ (fun hh => hj hh.symm)]
    rfl
  have hpsl_ne : ∀ j, j ≠ i → pslAt t j = pslAt s j := by
    intro j hj
    show (s.psl_.set i cp).getD j 0 = _
    rw [getD_set_ne _ _ _ _ _ (fun hh => hj hh.symm)]
    rfl
  have hInv : Inv t := by
    refine ⟨⟨hB.size_ge, ?_, ?_, hB.free_len, hB.idx_len, hB.count_eq, hB.load,
      hB.pos_lt, hB.pos_nodup, hB.pos_occ, hB.occ_pos, hB.idx_inv,
      ?_, ?_, ?_⟩, ?_⟩
    · show (s.data_.set i c).length = s.size_
      rw [List.length_set, hB.data_len]
    · show (s.psl_.set i cp).length = s.size_
      rw [List.length_set, hB.psl_len]
    · intro j hj ho
      by_cases hji : j = i
      · rw [hji, hpsli]
        exact hp1
      · rw [hpsl_ne j hji]
        exact hB.psl_pos j hj ho
    · intro j hj ho
      by_cases hji : j = i
      · rw [hji, hpsli, hkeyi]
        exact hpend
      · rw [hpsl_ne j hji, hkey_ne j hji]
        exact hB.path_end j hj ho
    · intro a b ha hb hoa hob hkeq
      by_cases hai : a = i <;> by_cases hbi : b = i
      · rw [hai, hbi]
      · rw [hai, hkeyi, hkey_ne b hbi] at hkeq
        exact absurd hkeq.symm (habs b hb hob)
      · rw [hbi, hkeyi, hkey_ne a hai] at hkeq
        exact absurd hkeq (habs a ha hoa)
      · rw [hkey_ne a hai, hkey_ne b hbi] at hkeq
        exact hB.keys_inj a b ha hb hoa hob hkeq
    · intro j hj ho d hd
      by_cases hji : j = i
      · rw [hji, hpsli] at hd
        rw [hji, hkeyi]
        by_cases hdc : d < cp - 1
        · exact hppath d hdc
        · have hd1 : d = cp - 1 := by omega
          rw [hd1]
          have hocc2 : Occ s ((home s c.1 + (cp - 1)) % s.size_) := by
            rw [← hpend]
            exact hocc
          exact hocc2
      · rw [hpsl_ne j hji] at hd
        rw [hkey_ne j hji]
        exact h.path j hj ho d hd
  refine ⟨hInv, ?_, ?_⟩
  · intro k v
    constructor
    · rintro (⟨j, hj, ho, hkey, hval⟩ | ⟨hk, hv⟩)
      · by_cases hji : j = i
        · right
          rw [hji, hkeyi] at hkey
          rw [hji, hvali] at hval
          exact ⟨hkey.symm, hval.symm⟩
        · left
          exact ⟨j, hj, ho, by rw [← hkey_ne j hji]; exact hkey,
            by rw [← hval_ne j hji]; exact hval⟩
      · left
        exact ⟨i, hi, hocc, hk.symm, hv.symm⟩
    · rintro (⟨j, hj, ho, hkey, hval⟩ | ⟨hk, hv⟩)
      · by_cases hji : j = i
        · right
          rw [hji] at hkey hval
          exact ⟨hkey.symm, hval.symm⟩
        · left
          exact ⟨j, hj, ho, by rw [hkey_ne j hji]; exact hkey,
            by rw [hval_ne j hji]; exact hval⟩
      · left
        exact ⟨i, hi, hocc, by rw [hkeyi, hk], by rw [hvali, hv]⟩
  · intro j hj ho
    by_cases hji : j = i
    · rw [hji, hkeyi]
      intro hc
      exact habs i hi hocc hc.symm
    · rw [hkey_ne j hji]
      intro hc
      exact hji (hB.keys_inj j i hj hi ho hocc hc)

end RobinHood.HashMap

namespace RobinHood.HashMap

variable {K V : Type} [DecidableEq K] [Inhabited K] [Inhabited V]

/-- Full specification of the Robin Hood placement loop: started with a
carried binding whose probe-path invariants hold and with a free slot within
`fuel` steps, it terminates by occupying a free slot; the invariant is
preserved, the count grows by one, the iteration index gains exactly the
newly occupied slot, and the table contents gain exactly the carried
binding. -/
theorem robinHoodGo_spec :
    ∀ (fuel : Nat) (s : HashMap K V) (c : K × V) (cp : Nat) (ans : Option Nat)
      (i : Nat),
    Inv s →
    s.element_count_ * 100 < 80 * s.size_ →
    i < s.size_ → 1 ≤ cp →
    i = (home s c.1 + (cp - 1)) % s.size_ →
    (∀ d, d < cp - 1 → Occ s ((home s c.1 + d) % s.size_)) →
    (∀ j, j < s.size_ → Occ s j → keyAt s j ≠ c.1) →
    (∃ d, d < fuel ∧ s.free_places_.getD ((i + d) % s.size_) true = true) →
    Inv (robinHoodGo s fuel c cp ans i).1 ∧
    (robinHoodGo s fuel c cp ans i).1.size_ = s.size_ ∧
    (robinHoodGo s fuel c cp ans i).1.hash = s.hash ∧
    (robinHoodGo s fuel c cp ans i).1.element_count_ = s.element_count_ + 1 ∧
    (∃ f, f < s.size_ ∧ ¬ Occ s f ∧
      (robinHoodGo s fuel c cp ans i).1.element_positions_ =
        s.element_positions_ ++ [f]) ∧
    (∀ k v, HasKeyVal (robinHoodGo s fuel c cp ans i).1 k v ↔
      (HasKeyVal s k v ∨ (k = c.1 ∧ v = c.2))) := by
  intro fuel
  induction fuel with
  | zero =>
    intro s c cp ans i _ _ _ _ _ _ _ hex
    obtain ⟨d, hd, _⟩ := hex
    omega
  | succ f ih =>
    intro s c cp ans i hInv hcool hi hcp hpend hppath habs hex
    have hunf : robinHoodGo s (f + 1) c cp ans i =
        (if s.free_places_.getD i true then
          (InsertByIndex s i c.1 c.2 cp, ans.getD i)
        else if s.psl_.getD i 0 < cp then
          robinHoodGo { s with data_ := s.data_.set i c, psl_ := s.psl_.set i cp }
            f (s.data_.getD i default) (s.psl_.getD i 0 + 1)
            (some (ans.getD i)) (if i + 1 = s.size_ then 0 else i + 1)
        else
          robinHoodGo s f c (cp + 1) ans
            (if i + 1 = s.size_ then 0 else i + 1)) := rfl
    by_cases hfree : s.free_places_.getD i true = true
    · rw [hunf, if_pos hfree]
      obtain ⟨hI, hs, hh, hc, hp, hcont⟩ :=
        insertByIndex_spec hInv hi hfree hcool habs hcp hpend hppath
      exact ⟨hI, hs, hh, hc,
        ⟨i, hi, by rw [not_occ_iff_free]; exact hfree, hp⟩, hcont⟩
    · have hocc : Occ s i := by
        unfold Occ
        revert hfree
        cases s.free_places_.getD i true <;> simp
      have hex' : ∃ d, d < f ∧
          s.free_places_.getD (((i + 1) % s.size_ + d) % s.size_) true = true := by
        obtain ⟨d₀, hd₀, hfr⟩ := hex
        have hd0 : d₀ ≠ 0 := by
          intro hh
          rw [hh, Nat.add_zero, Nat.mod_eq_of_lt hi] at hfr
          exact hfree hfr
        refine ⟨d₀ - 1, by omega, ?_⟩
        have harr : ((i + 1) % s.size_ + (d₀ - 1)) % s.size_ =
            (i + d₀) % s.size_ := by
          rw [Nat.mod_add_mod]
          congr 1
          omega
        rw [harr]
        exact hfr
      have hi1 : (i + 1) % s.size_ < s.size_ :=
        Nat.mod_lt _ hInv.base.size_pos
      by_cases hps : s.psl_.getD i 0 < cp
      · rw [hunf, if_neg hfree, if_pos hps, modStep i s.size_ hi]
        obtain ⟨hInv', hcont', habs'⟩ :=
          robinHoodSwap_spec hInv hi hocc hcp hpend hppath habs
        have hq1 : 1 ≤ s.psl_.getD i 0 := hInv.base.psl_pos i hi hocc
        have hpend' : (i + 1) % s.size_ =
            (home s (s.data_.getD i default).1 +
              (s.psl_.getD i 0 + 1 - 1)) % s.size_ := by
          have he : i = (home s (s.data_.getD i default).1 +
              (s.psl_.getD i 0 - 1)) % s.size_ := hInv.base.path_end i hi hocc
          conv_lhs => rw [he]
          rw [modSucc]
          congr 1
          omega
        obtain ⟨ihInv, ihSize, ihHash, ihCount, ihPos, ihCont⟩ :=
          ih { s with data_ := s.data_.set i c, psl_ := s.psl_.set i cp }
            (s.data_.getD i default) (s.psl_.getD i 0 + 1)
            (some (ans.getD i)) ((i + 1) % s.size_)
            hInv' hcool hi1 (by omega) hpend'
            (by
              intro d hd
              have hd2 : d < s.psl_.getD i 0 := by omega
              exact hInv.path i hi hocc d hd2)
            habs' hex'
        refine ⟨ihInv, ihSize, ihHash, ihCount, ihPos, ?_⟩
        intro k v
        rw [ihCont k v]
        exact hcont' k v
      · rw [hunf, if_neg hfree, if_neg hps, modStep i s.size_ hi]
        have hpend' : (i + 1) % s.size_ =
            (home s c.1 + (cp + 1 - 1)) % s.size_ := by
          conv_lhs => rw [hpend]
          rw [modSucc]
          congr 1
          omega
        obtain ⟨ihInv, ihSize, ihHash, ihCount, ihPos, ihCont⟩ :=
          ih s c (cp + 1) ans ((i + 1) % s.size_)
            hInv hcool hi1 (by omega) hpend'
            (by
              intro d hd
              by_cases hdc : d < cp - 1
              · exact hppath d hdc
              · have hd1 : d = cp - 1 := by omega
                rw [hd1]
                have hocc2 : Occ s ((home s c.1 + (cp - 1)) % s.size_) := by
                  rw [← hpend]
                  exact hocc
                exact hocc2)
            habs hex'
        exact ⟨ihInv, ihSize, ihHash, ihCount, ihPos, ihCont⟩

end RobinHood.HashMap

namespace RobinHood.HashMap

variable {K V : Type} [DecidableEq K] [Inhabited K] [Inhabited V]

theorem isCoolLoad_iff (s : HashMap K V) (m lf : Nat) :
    IsCoolLoad s m lf = true ↔ s.element_count_ * 100 < lf * m := by
  simp [IsCoolLoad]

/-- Top-level effect of `RobinHoodGetKeyIndex` on an invariant state whose
load check passed and whose key is absent. -/
theorem robinHoodInsert_spec {s : HashMap K V} (h : Inv s) {k : K} {v : V}
    (hcool : s.element_count_ * 100 < 80 * s.size_)
    (habs : ¬ HasKey s k) :
    Inv (RobinHoodGetKeyIndex s k v).1 ∧
    (RobinHoodGetKeyIndex s k v).1.size_ = s.size_ ∧
    (RobinHoodGetKeyIndex s k v).1.hash = s.hash ∧
    (RobinHoodGetKeyIndex s k v).1.element_count_ = s.element_count_ + 1 ∧
    (∃ f, f < s.size_ ∧ ¬ Occ s f ∧
      (RobinHoodGetKeyIndex s k v).1.element_positions_ =
        s.element_positions_ ++ [f]) ∧
    (∀ k' v', HasKeyVal (RobinHoodGetKeyIndex s k v).1 k' v' ↔
      (HasKeyVal s k' v' ∨ (k' = k ∧ v' = v))) := by
  have hpos : 0 < s.size_ := h.base.size_pos
  have hstart : s.hash k % s.size_ < s.size_ := Nat.mod_lt _ hpos
  have habs2 : ∀ j, j < s.size_ → Occ s j → keyAt s j ≠ (k, v).1 := by
    intro j hj ho hkey
    exact habs ⟨j, hj, ho, hkey⟩
  have hex : ∃ d, d < s.size_ ∧
      s.free_places_.getD ((s.hash k % s.size_ + d) % s.size_) true = true := by
    obtain ⟨f, hf, hfree⟩ := h.base.exists_free
    obtain ⟨d, hd, hdf⟩ := modCover f (s.hash k % s.size_) s.size_ hstart hf
    exact ⟨d, hd, by rw [hdf]; exact hfree⟩
  have hpend : s.hash k % s.size_ = (home s (k, v).1 + (1 - 1)) % s.size_ := by
    show s.hash k % s.size_ = (s.hash k % s.size_ + 0) % s.size_
    rw [Nat.add_zero, Nat.mod_eq_of_lt hstart]
  exact robinHoodGo_spec s.size_ s (k, v) 1 none (s.hash k % s.size_)
    h hcool hstart (le_refl 1) hpend (by intro d hd; omega) habs2 hex

/-- The rebuild size loop always stops after one multiplication on an
invariant-bearing state: the new capacity is `4 * size_`. -/
theorem rebuildNewSize_eq {s : HashMap K V} (h : Base s) :
    rebuildNewSize s = 4 * s.size_ := by
  have hcount := h.count_lt
  have hunf : rebuildNewSize s =
      (if IsCoolLoad s (s.size_ * SIZE_INCREASING_ON_REBUILD)
          MAX_LOAD_FACTOR_ON_REBUILD then
        s.size_ * SIZE_INCREASING_ON_REBUILD
      else rebuildNewSizeGo s s.element_count_
        (s.size_ * SIZE_INCREASING_ON_REBUILD)) := rfl
  rw [hunf, if_pos]
  · show s.size_ * 4 = 4 * s.size_
    rw [Nat.mul_comm]
  · rw [isCoolLoad_iff]
    show s.element_count_ * 100 < 50 * (s.size_ * 4)
    omega

/-- Folding `InsertElement` over a list of fresh, pairwise-distinct keys while
the load check keeps passing: no rebuild triggers, and the contents grow by
exactly the list. -/
theorem insertElemList_spec (fuel : Nat) :
    ∀ (l : List (K × V)) (s : HashMap K V),
    Inv s →
    (l.map Prod.fst).Nodup →
    (∀ e ∈ l, ¬ HasKey s e.1) →
    (s.element_count_ + l.length) * 100 < 80 * s.size_ + 100 →
    Inv (l.foldl (fun t e => (InsertElementF (fuel + 1) t e.1 e.2).1) s) ∧
    (l.foldl (fun t e => (InsertElementF (fuel + 1) t e.1 e.2).1) s).size_ =
      s.size_ ∧
    (l.foldl (fun t e => (InsertElementF (fuel + 1) t e.1 e.2).1) s).hash =
      s.hash ∧
    (l.foldl (fun t e =>
      (InsertElementF (fuel + 1) t e.1 e.2).1) s).element_count_ =
      s.element_count_ + l.length ∧
    (∀ k v, HasKeyVal
        (l.foldl (fun t e => (InsertElementF (fuel + 1) t e.1 e.2).1) s) k v ↔
      (HasKeyVal s k v ∨ (k, v) ∈ l)) := by
  intro l
  induction l with
  | nil =>
    intro s hInv _ _ _
    refine ⟨hInv, rfl, rfl, rfl, ?_⟩
    intro k v
    simp
  | cons e l ihl =>
    intro s hInv hnd habs hload
    have hcool : s.element_count_ * 100 < 80 * s.size_ := by
      have := hload
      rw [List.length_cons] at this
      omega
    have hunf : (InsertElementF (fuel + 1) s e.1 e.2).1 =
        (RobinHoodGetKeyIndex
          (if IsCoolLoad s s.size_ MAX_LOAD_FACTOR then s
            else rebuildCore
              (fun t a b => (InsertElementF fuel t a b).1) s) e.1 e.2).1 := rfl
    have hcoolb : IsCoolLoad s s.size_ MAX_LOAD_FACTOR = true := by
      rw [isCoolLoad_iff]
      exact hcool
    rw [List.foldl_cons]
    have hstep : (InsertElementF (fuel + 1) s e.1 e.2).1 =
        (RobinHoodGetKeyIndex s e.1 e.2).1 := by
      rw [hunf, if_pos hcoolb]
    obtain ⟨hI1, hs1, hh1, hc1, _, hcont1⟩ :=
      robinHoodInsert_spec hInv hcool (habs e (List.mem_cons_self e l))
    rw [hstep]
    have hknotin : e.1 ∉ l.map Prod.fst := by
      rw [List.map_cons] at hnd
      exact (List.nodup_cons.mp hnd).1
    obtain ⟨hI, hs, hh, hc, hcont⟩ := ihl (RobinHoodGetKeyIndex s e.1 e.2).1
      hI1
      (by rw [List.map_cons] at hnd; exact (List.nodup_cons.mp hnd).2)
      (by
        intro x hx hkx
        rw [hasKey_iff] at hkx
        obtain ⟨v, hv⟩ := hkx
        rw [hcont1 x.1 v] at hv
        rcases hv with hv | ⟨hv1, _⟩
        · exact habs x (List.mem_cons_of_mem e hx) ⟨_, hv.choose_spec.1,
            hv.choose_spec.2.1, hv.choose_spec.2.2.1⟩
        · exact hknotin (by rw [← hv1]; exact List.mem_map_of_mem Prod.fst hx))
      (by
        rw [hc1, hs1]
        rw [List.length_cons] at hload
        omega)
    refine ⟨hI, by rw [hs, hs1], by rw [hh, hh1], ?_, ?_⟩
    · rw [hc, hc1, List.length_cons]
      omega
    · intro k v
      rw [hcont k v, hcont1 k v, List.mem_cons]
      constructor
      · rintro ((hx | ⟨h1, h2⟩) | hx)
        · exact Or.inl hx
        · refine Or.inr (Or.inl ?_)
          rw [Prod.ext_iff]
          exact ⟨h1, h2⟩
        · exact Or.inr (Or.inr hx)
      · rintro (hx | hx | hx)
        · exact Or.inl (Or.inl hx)
        · refine Or.inl (Or.inr ?_)
          rw [Prod.ext_iff] at hx
          exact hx
        · exact Or.inr hx

end RobinHood.HashMap

namespace RobinHood.HashMap

variable {K V : Type} [DecidableEq K] [Inhabited K] [Inhabited V]

/-- The bindings drained from the iteration index are exactly the table
contents. -/
theorem drained_mem_iff {s : HashMap K V} (h : Base s) (k : K) (v : V) :
    ((k, v) ∈ s.element_positions_.map fun i => s.data_.getD i default) ↔
      HasKeyVal s k v := by
  rw [List.mem_map]
  constructor
  · rintro ⟨p, hp, he⟩
    refine ⟨p, h.pos_lt p hp, h.pos_occ p hp, ?_, ?_⟩
    · show (s.data_.getD p default).1 = k
      rw [he]
    · show (s.data_.getD p default).2 = v
      rw [he]
  · rintro ⟨i, hi, ho, hk, hv⟩
    refine ⟨i, h.occ_pos i hi ho, ?_⟩
    have h1 : (s.data_.getD i default).1 = k := hk
    have h2 : (s.data_.getD i default).2 = v := hv
    rw [Prod.ext_iff]
    exact ⟨h1, h2⟩

/-- `Rebuild` preserves the invariant and the contents, multiplies the
capacity by 4 and keeps the element count unchanged. -/
theorem rebuildF_spec (fuel : Nat) {s : HashMap K V} (h : Inv s) :
    Inv (RebuildF (fuel + 1) s) ∧
    (RebuildF (fuel + 1) s).size_ = 4 * s.size_ ∧
    (RebuildF (fuel + 1) s).hash = s.hash ∧
    (RebuildF (fuel + 1) s).element_count_ = s.element_count_ ∧
    (∀ k v, HasKeyVal (RebuildF (fuel + 1) s) k v ↔ HasKeyVal s k v) := by
  have hB := h.base
  have hns : rebuildNewSize s = 4 * s.size_ := rebuildNewSize_eq hB
  have hunf : RebuildF (fuel + 1) s =
      (s.element_positions_.map fun i => s.data_.getD i default).foldl
        (fun t e => (InsertElementF (fuel + 1) t e.1 e.2).1)
        (Init s (rebuildNewSize s)) := rfl
  rw [hunf, hns]
  have hInit : Inv (Init s (4 * s.size_)) :=
    init_inv s _ (by have := hB.size_ge; omega)
  have hlen : (s.element_positions_.map fun i =>
      s.data_.getD i default).length = s.element_count_ := by
    rw [List.length_map, hB.count_eq]
  have hnd : ((s.element_positions_.map fun i =>
      s.data_.getD i default).map Prod.fst).Nodup := by
    rw [List.map_map]
    refine List.Nodup.map_on ?_ hB.pos_nodup
    intro p hp q hq hpq
    exact hB.keys_inj p q (hB.pos_lt p hp) (hB.pos_lt q hq)
      (hB.pos_occ p hp) (hB.pos_occ q hq) hpq
  obtain ⟨hI, hs, hh, hc, hcont⟩ := insertElemList_spec fuel
    (s.element_positions_.map fun i => s.data_.getD i default)
    (Init s (4 * s.size_)) hInit hnd
    (fun e _ => not_hasKey_Init s _ e.1)
    (by
      show (0 + (s.element_positions_.map fun i =>
        s.data_.getD i default).length) * 100 < 80 * (4 * s.size_) + 100
      rw [hlen]
      have := hB.load
      omega)
  refine ⟨hI, ?_, hh, ?_, ?_⟩
  · rw [hs]
    rfl
  · rw [hc, hlen]
    show 0 + s.element_count_ = s.element_count_
    omega
  · intro k v
    rw [hcont k v, drained_mem_iff hB]
    constructor
    · rintro (hx | hx)
      · exact absurd hx (not_hasKeyVal_Init s _ k v)
      · exact hx
    · intro hx
      exact Or.inr hx

/-- `InsertElement` on an invariant state with an absent key: the invariant
is preserved, the count grows by one, the contents gain the binding, and the
capacity stays (load check passed) or is multiplied by 4 (rebuild). -/
theorem insertElementF_spec (fuel : Nat) {s : HashMap K V} (h : Inv s)
    (k : K) (v : V) (habs : ¬ HasKey s k) :
    Inv (InsertElementF (fuel + 2) s k v).1 ∧
    (InsertElementF (fuel + 2) s k v).1.hash = s.hash ∧
    (InsertElementF (fuel + 2) s k v).1.element_count_ =
      s.element_count_ + 1 ∧
    (∀ k' v', HasKeyVal (InsertElementF (fuel + 2) s k v).1 k' v' ↔
      (HasKeyVal s k' v' ∨ (k' = k ∧ v' = v))) ∧
    (s.element_count_ * 100 < 80 * s.size_ →
      (InsertElementF (fuel + 2) s k v).1.size_ = s.size_) ∧
    (¬ (s.element_count_ * 100 < 80 * s.size_) →
      (InsertElementF (fuel + 2) s k v).1.size_ = 4 * s.size_) := by
  have hunf : (InsertElementF (fuel + 2) s k v).1 =
      (RobinHoodGetKeyIndex
        (if IsCoolLoad s s.size_ MAX_LOAD_FACTOR then s
          else RebuildF (fuel + 1) s) k v).1 := rfl
  by_cases hcool : s.element_count_ * 100 < 80 * s.size_
  · rw [hunf, if_pos (by rw [isCoolLoad_iff]; exact hcool)]
    obtain ⟨hI, hs, hh, hc, _, hcont⟩ := robinHoodInsert_spec h hcool habs
    exact ⟨hI, hh, hc, hcont, fun _ => hs, fun hx => absurd hcool hx⟩
  · rw [hunf, if_neg (by rw [isCoolLoad_iff]; exact hcool)]
    obtain ⟨hI2, hs2, hh2, hc2, hcont2⟩ := rebuildF_spec fuel h
    have habs2 : ¬ HasKey (RebuildF (fuel + 1) s) k := by
      intro hk
      rw [hasKey_iff] at hk
      obtain ⟨w, hw⟩ := hk
      rw [hcont2 k w] at hw
      exact habs ⟨_, hw.choose_spec.1, hw.choose_spec.2.1,
        hw.choose_spec.2.2.1⟩
    have hcool2 : (RebuildF (fuel + 1) s).element_count_ * 100 <
        80 * (RebuildF (fuel + 1) s).size_ := by
      rw [hc2, hs2]
      have := h.base.load
      have := h.base.size_ge
      omega
    obtain ⟨hI3, hs3, hh3, hc3, _, hcont3⟩ :=
      robinHoodInsert_spec hI2 hcool2 habs2
    refine ⟨hI3, by rw [hh3, hh2], by rw [hc3, hc2], ?_,
      fun hx => absurd hx hcool, fun _ => by rw [hs3, hs2]⟩
    intro k' v'
    rw [hcont3 k' v', hcont2 k' v']

/-- Public `insert` is a strict no-op when the key is present. -/
theorem insert_mem_eq {s : HashMap K V} (h : Inv s) {k : K} (v : V)
    (hk : HasKey s k) : insert s (k, v) = s := by
  have hunf : insert s (k, v) =
      (if s.free_places_.getD (GetKeyIndex s k) true then
        (InsertElementF 2 s k v).1 else s) := rfl
  obtain ⟨j, hj, ho, hkey⟩ := hk
  rw [hunf, getKeyIndex_found h j hj ho hkey,
    if_neg (by rw [ho]; exact Bool.false_ne_true)]

/-- Public `insert` of an absent key. -/
theorem insert_not_mem_spec {s : HashMap K V} (h : Inv s) (k : K) (v : V)
    (habs : ¬ HasKey s k) :
    Inv (insert s (k, v)) ∧
    (insert s (k, v)).hash = s.hash ∧
    (insert s (k, v)).element_count_ = s.element_count_ + 1 ∧
    (∀ k' v', HasKeyVal (insert s (k, v)) k' v' ↔
      (HasKeyVal s k' v' ∨ (k' = k ∧ v' = v))) ∧
    (s.element_count_ * 100 < 80 * s.size_ →
      (insert s (k, v)).size_ = s.size_) ∧
    (¬ (s.element_count_ * 100 < 80 * s.size_) →
      (insert s (k, v)).size_ = 4 * s.size_) := by
  have hunf : insert s (k, v) =
      (if s.free_places_.getD (GetKeyIndex s k) true then
        (InsertElementF 2 s k v).1 else s) := rfl
  obtain ⟨_, hfree⟩ := getKeyIndex_absent h k habs
  rw [hunf, if_pos hfree]
  exact insertElementF_spec 0 h k v habs

end RobinHood.HashMap

namespace RobinHood

/-! ### More list helpers, for the swap-remove deletion -/

theorem getD_eq_getElem {α : Type} (l : List α) (i : Nat) (h : i < l.length)
    (d : α) : l.getD i d = l[i] := by
  rw [List.getD_eq_getElem?_getD, List.getElem?_eq_getElem h]
  rfl

theorem nodup_getD_inj {α : Type} {l : List α} (h : l.Nodup) {t u : Nat}
    (ht : t < l.length) (hu : u < l.length) (d : α)
    (he : l.getD t d = l.getD u d) : t = u := by
  rw [getD_eq_getElem l t ht d, getD_eq_getElem l u hu d] at he
  exact (List.Nodup.getElem_inj_iff h).mp he

theorem nodup_of_getD_inj {α : Type} {l : List α} (d : α)
    (h : ∀ t u, t < l.length → u < l.length → l.getD t d = l.getD u d →
      t = u) : l.Nodup := by
  rw [List.nodup_iff_getElem?_ne_getElem?]
  intro i j hij hj hc
  rw [List.getElem?_eq_getElem hj, List.getElem?_eq_getElem (by omega)] at hc
  have he : l.getD i d = l.getD j d := by
    rw [getD_eq_getElem l i (by omega) d, getD_eq_getElem l j hj d]
    exact Option.some_inj.mp hc
  have := h i j (by omega) hj he
  omega

theorem mem_iff_getD {α : Type} (l : List α) (q : α) (d : α) :
    q ∈ l ↔ ∃ t, t < l.length ∧ l.getD t d = q := by
  rw [List.mem_iff_getElem]
  constructor
  · rintro ⟨t, ht, he⟩
    exact ⟨t, ht, by rw [getD_eq_getElem l t ht d]; exact he⟩
  · rintro ⟨t, ht, he⟩
    exact ⟨t, ht, by rw [← getD_eq_getElem l t ht d]; exact he⟩

theorem getD_dropLast {α : Type} (l : List α) (t : Nat) (d : α)
    (h : t < l.length - 1) : l.dropLast.getD t d = l.getD t d := by
  rw [List.getD_eq_getElem?_getD, List.getD_eq_getElem?_getD,
    List.getElem?_dropLast, if_pos h]

theorem dropLast_set_last {α : Type} (l : List α) (x : α) :
    (l.set (l.length - 1) x).dropLast = l.dropLast := by
  refine List.ext_getElem? ?_
  intro n
  rw [List.getElem?_dropLast, List.getElem?_dropLast, List.length_set]
  by_cases hn : n < l.length - 1
  · rw [if_pos hn, if_pos hn, List.getElem?_set_ne (by omega)]
  · rw [if_neg hn, if_neg hn]

theorem set_getD_self {α : Type} (l : List α) (n : Nat) (d : α)
    (h : n < l.length) : l.set n (l.getD n d) = l := by
  refine List.ext_getElem? ?_
  intro j
  by_cases hj : j = n
  · rw [hj, List.getElem?_set_self (by omega), getD_eq_getElem l n h d,
      List.getElem?_eq_getElem h]
  · rw [List.getElem?_set_ne (by omega)]

end RobinHood


namespace RobinHood

/-- Generic correctness of the swap-with-last removal performed by
`DeleteElementByPosition` on the dense index pair: the removed entry `p`
leaves the position list, no other entry does, no duplicates appear, and the
inverse index stays consistent. -/
theorem swapRemove_spec (L idx : List Nat) (p i0 b m : Nat)
    (hm : m = L.length)
    (hb : b = L.getD (m - 1) 0)
    (hnd : L.Nodup)
    (hm1 : 0 < m)
    (hi0lt : i0 < m)
    (hLi : L.getD i0 0 = p)
    (hidx_inv : ∀ t, t < m → idx.getD (L.getD t 0) 0 = t)
    (hblen : b < idx.length) :
    ((L.set i0 b).set (m - 1) p).dropLast = (L.set i0 b).dropLast ∧
    ((L.set i0 b).dropLast).length = m - 1 ∧
    (∀ q, q ∈ (L.set i0 b).dropLast ↔ (q ∈ L ∧ q ≠ p)) ∧
    ((L.set i0 b).dropLast).Nodup ∧
    (∀ t, t < m - 1 →
      ((idx.set p (idx.getD b 0)).set b i0).getD
        (((L.set i0 b).dropLast).getD t 0) 0 = t) := by
  have hPget : ∀ t, t < m - 1 → ((L.set i0 b).dropLast).getD t 0 =
      (if t = i0 then b else L.getD t 0) := by
    intro t ht
    rw [getD_dropLast _ _ _ (by rw [List.length_set]; omega)]
    by_cases hti : t = i0
    · rw [if_pos hti, hti, getD_set_self _ _ _ _ (by omega)]
    · rw [if_neg hti, getD_set_ne _ _ _ _ _ (fun hh => hti hh.symm)]
  refine ⟨?_, ?_, ?_, ?_, ?_⟩
  · by_cases hcase : i0 = m - 1
    · have hbp : b = p := by
        rw [hb, ← hcase]
        exact hLi
      rw [hcase, List.set_set, hbp]
    · have hlm : m - 1 = (L.set i0 b).length - 1 := by
        rw [List.length_set]
        omega
      rw [hlm, dropLast_set_last]
  · rw [List.length_dropLast, List.length_set]
    omega
  · intro q
    rw [mem_iff_getD _ _ 0, mem_iff_getD L q 0]
    have hPlen : ((L.set i0 b).dropLast).length = m - 1 := by
      rw [List.length_dropLast, List.length_set]
      omega
    constructor
    · rintro ⟨t, ht, he⟩
      rw [hPlen] at ht
      rw [hPget t ht] at he
      by_cases hti : t = i0
      · rw [if_pos hti] at he
        have hbnep : b ≠ p := by
          intro hbp
          have hmi : m - 1 = i0 := by
            refine nodup_getD_inj hnd (by omega) (by omega) 0 ?_
            rw [← hb, hbp, hLi]
          omega
        exact ⟨⟨m - 1, by omega, by rw [← hb, he]⟩, by rw [← he]; exact hbnep⟩
      · rw [if_neg hti] at he
        refine ⟨⟨t, by omega, he⟩, ?_⟩
        intro hqp
        rw [hqp] at he
        have : t = i0 := by
          refine nodup_getD_inj hnd (by omega) (by omega) 0 ?_
          rw [he, hLi]
        exact hti this
    · rintro ⟨⟨t, ht, he⟩, hqp⟩
      have hti : t ≠ i0 := by
        intro hh
        rw [hh, hLi] at he
        exact hqp he.symm
      by_cases htm : t = m - 1
      · have hq : q = b := by rw [hb, ← htm, he]
        have hi0m : i0 < m - 1 := by omega
        refine ⟨i0, by rw [hPlen]; omega, ?_⟩
        rw [hPget i0 hi0m, if_pos rfl, hq]
      · refine ⟨t, by rw [hPlen]; omega, ?_⟩
        rw [hPget t (by omega), if_neg hti]
        exact he
  · refine nodup_of_getD_inj 0 ?_
    intro t u ht hu he
    rw [List.length_dropLast, List.length_set] at ht hu
    rw [hPget t (by omega), hPget u (by omega)] at he
    by_cases hti : t = i0 <;> by_cases hui : u = i0
    · rw [hti, hui]
    · rw [if_pos hti, if_neg hui] at he
      have : m - 1 = u := by
        refine nodup_getD_inj hnd (by omega) (by omega) 0 ?_
        rw [← hb, he]
      omega
    · rw [if_neg hti, if_pos hui] at he
      have : t = m - 1 := by
        refine nodup_getD_inj hnd (by omega) (by omega) 0 ?_
        rw [he, ← hb]
      omega
    · rw [if_neg hti, if_neg hui] at he
      exact nodup_getD_inj hnd (by omega) (by omega) 0 he
  · intro t ht
    rw [hPget t ht]
    by_cases hti : t = i0
    · rw [if_pos hti,
        getD_set_self _ _ _ _ (by rw [List.length_set]; exact hblen), hti]
    · rw [if_neg hti]
      have hq : L.getD t 0 ≠ b := by
        intro hh
        have : t = m - 1 := by
          refine nodup_getD_inj hnd (by omega) (by omega) 0 ?_
          rw [hh, hb]
        omega
      have hqp : L.getD t 0 ≠ p := by
        intro hh
        have : t = i0 := by
          refine nodup_getD_inj hnd (by omega) (by omega) 0 ?_
          rw [hh, hLi]
        exact hti this
      rw [getD_set_ne _ _ _ _ _ (fun hh => hq hh.symm),
        getD_set_ne _ _ _ _ _ (fun hh => hqp hh.symm)]
      exact hidx_inv t (by omega)

end RobinHood

namespace RobinHood.HashMap

variable {K V : Type} [DecidableEq K] [Inhabited K] [Inhabited V]

/-! ### Deletion without repair -/

/-- `DeleteElementByPosition(p, false)` on an occupied slot: the slot is
freed, the iteration index swap-removes it, the count drops by one, and the
structural invariant survives (only the probe-path property can break). -/
theorem deleteNoFix_spec {s : HashMap K V} (h : Base s) {p : Nat}
    (hp : p < s.size_) (ho : Occ s p) :
    Base (DeleteNoFix s p) ∧
    (DeleteNoFix s p).size_ = s.size_ ∧
    (DeleteNoFix s p).hash = s.hash ∧
    (DeleteNoFix s p).data_ = s.data_ ∧
    (DeleteNoFix s p).psl_ = s.psl_ ∧
    (DeleteNoFix s p).element_count_ + 1 = s.element_count_ ∧
    ¬ Occ (DeleteNoFix s p) p ∧
    (∀ q, q ≠ p → (Occ (DeleteNoFix s p) q ↔ Occ s q)) := by
  have hmem_p : p ∈ s.element_positions_ := h.occ_pos p hp ho
  obtain ⟨hi0lt, hLi⟩ := h.idx_mem p hmem_p
  have hm1 : 0 < s.element_positions_.length := List.length_pos_of_mem hmem_p
  have hpos_raw : (DeleteNoFix s p).element_positions_ =
      ((s.element_positions_.set (s.index_in_element_positions_.getD p 0)
          (s.element_positions_.getD (s.element_positions_.length - 1) 0)).set
        (s.element_positions_.length - 1)
        (s.element_positions_.getD
          (s.index_in_element_positions_.getD p 0) 0)).dropLast := rfl
  rw [hLi] at hpos_raw
  have hidx_raw : (DeleteNoFix s p).index_in_element_positions_ =
      (s.index_in_element_positions_.set
        (s.element_positions_.getD
          (s.index_in_element_positions_.getD p 0) 0)
        (s.index_in_element_positions_.getD
          (s.element_positions_.getD (s.element_positions_.length - 1) 0) 0)).set
        (s.element_positions_.getD (s.element_positions_.length - 1) 0)
        (s.index_in_element_positions_.getD
          (s.element_positions_.getD
            (s.index_in_element_positions_.getD p 0) 0) 0) := rfl
  rw [hLi] at hidx_raw
  have hfree2 : (DeleteNoFix s p).free_places_ =
      s.free_places_.set p true := rfl
  have hsize2 : (DeleteNoFix s p).size_ = s.size_ := rfl
  have hhash2 : (DeleteNoFix s p).hash = s.hash := rfl
  have hdata2 : (DeleteNoFix s p).data_ = s.data_ := rfl
  have hpsl2 : (DeleteNoFix s p).psl_ = s.psl_ := rfl
  have hcnt2 : (DeleteNoFix s p).element_count_ = s.element_count_ - 1 := rfl
  have hplen : p < s.free_places_.length := by rw [h.free_len]; exact hp
  obtain ⟨hP1, hPlen, hPmem, hPnodup, hPidx⟩ :=
    swapRemove_spec s.element_positions_ s.index_in_element_positions_ p
      (s.index_in_element_positions_.getD p 0)
      (s.element_positions_.getD (s.element_positions_.length - 1) 0)
      s.element_positions_.length rfl rfl h.pos_nodup hm1 hi0lt hLi
      h.idx_inv
      (by
        rw [h.idx_len]
        exact h.pos_lt _ (getD_mem _ _ _ (by omega)))
  rw [hP1] at hpos_raw
  have hnoccp : ¬ Occ (DeleteNoFix s p) p := by
    rw [not_occ_iff_free]
    show (DeleteNoFix s p).free_places_.getD p true = true
    rw [hfree2]
    exact getD_set_self _ _ _ _ hplen
  have hocc_ne : ∀ q, q ≠ p → (Occ (DeleteNoFix s p) q ↔ Occ s q) := by
    intro q hq
    show (DeleteNoFix s p).free_places_.getD q true = false ↔ _
    rw [hfree2, getD_set_ne _ _ _ _ _ (fun hh => hq hh.symm)]
    exact Iff.rfl
  have hcount : s.element_count_ = s.element_positions_.length := h.count_eq
  refine ⟨⟨?_, ?_, ?_, ?_, ?_, ?_, ?_, ?_, ?_, ?_, ?_, ?_, ?_, ?_, ?_⟩,
    hsize2, hhash2, hdata2, hpsl2, by rw [hcnt2]; omega, hnoccp, hocc_ne⟩
  · rw [hsize2]; exact h.size_ge
  · rw [hdata2, hsize2]; exact h.data_len
  · rw [hpsl2, hsize2]; exact h.psl_len
  · rw [hfree2, hsize2, List.length_set]; exact h.free_len
  · rw [hidx_raw, hsize2, List.length_set, List.length_set]; exact h.idx_len
  · rw [hcnt2, hpos_raw, hPlen]
    omega
  · rw [hcnt2, hsize2]
    have := h.load
    omega
  · rw [hpos_raw]
    intro q hq
    exact h.pos_lt q ((hPmem q).mp hq).1
  · rw [hpos_raw]
    exact hPnodup
  · rw [hpos_raw]
    intro q hq
    obtain ⟨hqL, hqp⟩ := (hPmem q).mp hq
    exact (hocc_ne q hqp).mpr (h.pos_occ q hqL)
  · rw [hsize2, hpos_raw]
    intro j hj hoj
    have hjp : j ≠ p := fun hh => hnoccp (hh ▸ hoj)
    rw [hPmem j]
    exact ⟨h.occ_pos j hj ((hocc_ne j hjp).mp hoj), hjp⟩
  · rw [hpos_raw, hidx_raw, hPlen]
    exact hPidx
  · rw [hsize2]
    intro j hj hoj
    have hjp : j ≠ p := fun hh => hnoccp (hh ▸ hoj)
    exact h.psl_pos j hj ((hocc_ne j hjp).mp hoj)
  · rw [hsize2]
    intro j hj hoj
    have hjp : j ≠ p := fun hh => hnoccp (hh ▸ hoj)
    exact h.path_end j hj ((hocc_ne j hjp).mp hoj)
  · rw [hsize2]
    intro a c ha hc hoa hoc hkeq
    have hap : a ≠ p := fun hh => hnoccp (hh ▸ hoa)
    have hcp : c ≠ p := fun hh => hnoccp (hh ▸ hoc)
    exact h.keys_inj a c ha hc ((hocc_ne a hap).mp hoa)
      ((hocc_ne c hcp).mp hoc) hkeq

end RobinHood.HashMap

namespace RobinHood.HashMap

variable {K V : Type} [DecidableEq K] [Inhabited K] [Inhabited V]

theorem deleteNoFix_free_eq (s : HashMap K V) (p : Nat) :
    (DeleteNoFix s p).free_places_ = s.free_places_.set p true := rfl

theorem not_occ_deleteNoFix (s : HashMap K V) (p : Nat) :
    ¬ Occ (DeleteNoFix s p) p := by
  rw [not_occ_iff_free]
  show (DeleteNoFix s p).free_places_.getD p true = true
  rw [deleteNoFix_free_eq]
  by_cases h : p < s.free_places_.length
  · exact getD_set_self _ _ _ _ h
  · rw [getD_of_le]
    rw [List.length_set]
    omega

theorem occ_deleteNoFix_ne (s : HashMap K V) (p q : Nat) (h : q ≠ p) :
    Occ (DeleteNoFix s p) q ↔ Occ s q := by
  show (DeleteNoFix s p).free_places_.getD q true = false ↔ _
  rw [deleteNoFix_free_eq, getD_set_ne _ _ _ _ _ (fun hh => h hh.symm)]
  exact Iff.rfl

/-- Iterated `DeleteNoFix` over a run of occupied slots: the structural
invariant survives, the data array is untouched, and exactly the run slots
are freed. -/
theorem deleteRun_spec :
    ∀ (m : Nat) (s : HashMap K V) (i0 : Nat),
    Base s → i0 < s.size_ → m ≤ s.size_ →
    (∀ t, t < m → Occ s ((i0 + t) % s.size_)) →
    Base (((List.range m).map fun t => (i0 + t) % s.size_).foldl
      (fun u q => DeleteNoFix u q) s) ∧
    (((List.range m).map fun t => (i0 + t) % s.size_).foldl
      (fun u q => DeleteNoFix u q) s).size_ = s.size_ ∧
    (((List.range m).map fun t => (i0 + t) % s.size_).foldl
      (fun u q => DeleteNoFix u q) s).hash = s.hash ∧
    (((List.range m).map fun t => (i0 + t) % s.size_).foldl
      (fun u q => DeleteNoFix u q) s).data_ = s.data_ ∧
    (((List.range m).map fun t => (i0 + t) % s.size_).foldl
      (fun u q => DeleteNoFix u q) s).psl_ = s.psl_ ∧
    (((List.range m).map fun t => (i0 + t) % s.size_).foldl
      (fun u q => DeleteNoFix u q) s).element_count_ + m =
      s.element_count_ ∧
    (∀ x, Occ (((List.range m).map fun t => (i0 + t) % s.size_).foldl
      (fun u q => DeleteNoFix u q) s) x ↔
      (Occ s x ∧ ∀ t, t < m → x ≠ (i0 + t) % s.size_)) := by
  intro m
  induction m with
  | zero =>
    intro s i0 hB _ _ _
    refine ⟨hB, rfl, rfl, rfl, rfl, rfl, ?_⟩
    intro x
    constructor
    · intro hx
      exact ⟨hx, fun t ht => absurd ht (Nat.not_lt_zero t)⟩
    · intro hx
      exact hx.1
  | succ m ihm =>
    intro s i0 hB hi0 hm hocc
    have hrange : (List.range (m + 1)).map (fun t => (i0 + t) % s.size_) =
        ((List.range m).map fun t => (i0 + t) % s.size_) ++
          [(i0 + m) % s.size_] := by
      rw [List.range_succ, List.map_append]
      rfl
    rw [hrange, List.foldl_append, List.foldl_cons, List.foldl_nil]
    obtain ⟨hB1, hs1, hh1, hd1, hp1, hc1, hocc1⟩ :=
      ihm s i0 hB hi0 (by omega) (fun t ht => hocc t (by omega))
    have hslot : (i0 + m) % s.size_ < s.size_ :=
      Nat.mod_lt _ (by have := hB.size_ge; omega)
    have hoccm : Occ (((List.range m).map fun t => (i0 + t) % s.size_).foldl
        (fun u q => DeleteNoFix u q) s) ((i0 + m) % s.size_) := by
      rw [hocc1]
      refine ⟨hocc m (by omega), ?_⟩
      intro t ht
      exact modNe m t i0 s.size_ (by omega) (by omega) (by omega)
    obtain ⟨hB2, hs2, hh2, hd2, hp2, hc2, hnocc2, hocc2⟩ :=
      deleteNoFix_spec hB1 (by rw [hs1]; exact hslot) hoccm
    show _ ∧ _ ∧ _ ∧ _ ∧ _ ∧ _ ∧ _
    refine ⟨hB2, by rw [hs2, hs1], by rw [hh2, hh1], by rw [hd2, hd1],
      by rw [hp2, hp1], by omega, ?_⟩
    intro x
    by_cases hx : x = (i0 + m) % s.size_
    · rw [hx]
      constructor
      · intro hh
        exact absurd hh hnocc2
      · rintro ⟨_, hall⟩
        exact absurd rfl (hall m (by omega))
    · rw [hocc2 x hx, hocc1 x]
      constructor
      · rintro ⟨ho, hall⟩
        refine ⟨ho, ?_⟩
        intro t ht
        by_cases htm : t = m
        · rw [htm]
          exact hx
        · exact hall t (by omega)
      · rintro ⟨ho, hall⟩
        exact ⟨ho, fun t ht => hall t (by omega)⟩

/-- The eviction loop of `FixPosition` deletes exactly the contiguous
occupied run and collects its bindings in order. -/
theorem fixCollectGo_eq :
    ∀ (m : Nat) (s : HashMap K V) (fuel i0 : Nat) (acc : List (K × V)),
    i0 < s.size_ → m < fuel → m < s.size_ →
    (∀ t, t < m → Occ s ((i0 + t) % s.size_)) →
    ¬ Occ s ((i0 + m) % s.size_) →
    fixCollectGo s fuel i0 acc =
      (((List.range m).map fun t => (i0 + t) % s.size_).foldl
          (fun u q => DeleteNoFix u q) s,
        acc ++ ((List.range m).map fun t => (i0 + t) % s.size_).map
          (fun q => s.data_.getD q default)) := by
  intro m
  induction m with
  | zero =>
    intro s fuel i0 acc hi0 hfuel _ _ hstop
    cases fuel with
    | zero => omega
    | succ f =>
      have hfree : s.free_places_.getD i0 true = true := by
        rw [← not_occ_iff_free]
        intro hocc
        refine hstop ?_
        rw [Nat.add_zero, Nat.mod_eq_of_lt hi0]
        exact hocc
      show (if s.free_places_.getD i0 true then (s, acc)
        else _) = _
      rw [if_pos hfree]
      rw [List.range_zero, List.map_nil, List.map_nil, List.foldl_nil,
        List.append_nil]
  | succ m ihm =>
    intro s fuel i0 acc hi0 hfuel hm hocc hstop
    cases fuel with
    | zero => omega
    | succ f =>
      have hocc0 : Occ s i0 := by
        have := hocc 0 (by omega)
        rw [Nat.add_zero, Nat.mod_eq_of_lt hi0] at this
        exact this
      have hunf : fixCollectGo s (f + 1) i0 acc =
          fixCollectGo (DeleteNoFix s i0) f
            (if i0 + 1 = s.size_ then 0 else i0 + 1)
            (acc ++ [s.data_.getD i0 default]) := by
        show (if s.free_places_.getD i0 true then (s, acc) else _) = _
        rw [if_neg (by rw [hocc0]; exact Bool.false_ne_true)]
        rfl
      rw [hunf, modStep i0 s.size_ hi0]
      clear hunf
      have hsizeq : (DeleteNoFix s i0).size_ = s.size_ := rfl
      have hdataq : (DeleteNoFix s i0).data_ = s.data_ := rfl
      have hsize : (DeleteNoFix s i0).size_ = s.size_ := rfl
      have hdata : (DeleteNoFix s i0).data_ = s.data_ := rfl
      have harith : ∀ t : Nat,
          ((i0 + 1) % s.size_ + t) % s.size_ = (i0 + (t + 1)) % s.size_ := by
        intro t
        rw [Nat.mod_add_mod]
        congr 1
        omega
      have hozero : 0 < s.size_ := by omega
      rw [ihm (DeleteNoFix s i0) f ((i0 + 1) % s.size_)
        (acc ++ [s.data_.getD i0 default])
        (by rw [hsize]; exact Nat.mod_lt _ hozero) (by omega)
        (by rw [hsize]; omega)
        (by
          intro t ht
          have hne : (i0 + (t + 1)) % s.size_ ≠ i0 := by
            intro hh
            have hh2 : (i0 + (t + 1)) % s.size_ = (i0 + 0) % s.size_ := by
              rw [hh, Nat.add_zero, Nat.mod_eq_of_lt hi0]
            exact modNe (t + 1) 0 i0 s.size_ (by omega) (by omega)
              (by omega) hh2
          show Occ (DeleteNoFix s i0) (((i0 + 1) % s.size_ + t) % s.size_)
          rw [harith t, occ_deleteNoFix_ne s i0 _ hne]
          exact hocc (t + 1) (by omega))
        (by
          show ¬ Occ (DeleteNoFix s i0) (((i0 + 1) % s.size_ + m) % s.size_)
          rw [harith m]
          by_cases hmn : m + 1 = s.size_
          · have hwrap : (i0 + (m + 1)) % s.size_ = i0 := by
              rw [hmn, Nat.add_mod_right, Nat.mod_eq_of_lt hi0]
            rw [hwrap]
            exact not_occ_deleteNoFix s i0
          · have hne : (i0 + (m + 1)) % s.size_ ≠ i0 := by
              intro hh
              have hh2 : (i0 + (m + 1)) % s.size_ = (i0 + 0) % s.size_ := by
                rw [hh, Nat.add_zero, Nat.mod_eq_of_lt hi0]
              exact modNe (m + 1) 0 i0 s.size_ (by omega) (by omega)
                (by omega) hh2
            rw [occ_deleteNoFix_ne s i0 _ hne]
            exact hstop)]
      rw [hsizeq, hdataq]
      have hlist1 : (List.range (m + 1)).map (fun t => (i0 + t) % s.size_) =
          i0 :: (List.range m).map
            (fun t => ((i0 + 1) % s.size_ + t) % s.size_) := by
        rw [List.range_succ_eq_map, List.map_cons, List.map_map]
        congr 1
        · rw [Nat.add_zero, Nat.mod_eq_of_lt hi0]
        · refine List.map_congr_left ?_
          intro t _
          show (i0 + (t + 1)) % s.size_ = ((i0 + 1) % s.size_ + t) % s.size_
          rw [harith t]
      rw [hlist1, List.foldl_cons, List.map_cons, List.append_assoc,
        List.singleton_append]

end RobinHood.HashMap

namespace RobinHood.HashMap

variable {K V : Type} [DecidableEq K] [Inhabited K] [Inhabited V]

/-- Core argument of the deletion repair: if the cyclic interval
`p, p+1, …, p+m` (mod capacity) is followed by a free slot, then the probe
path of any occupied slot outside that interval avoids the interval entirely
— otherwise the path would have to cross the free slot. -/
theorem path_avoids_freed {s : HashMap K V} (h : Inv s) {p m j : Nat}
    (hm : m + 1 < s.size_) (hj : j < s.size_)
    (hoj : Occ s j)
    (hqfree : ¬ Occ s ((p + (m + 1)) % s.size_))
    (hjF : ∀ t, t ≤ m → j ≠ (p + t) % s.size_) :
    ∀ d, d < pslAt s j → ∀ t, t ≤ m →
      (home s (keyAt s j) + d) % s.size_ ≠ (p + t) % s.size_ := by
  intro d hd t ht hcontra
  have hpsl1 := h.base.psl_pos j hj hoj
  by_cases hcase : d + (m + 1 - t) < pslAt s j
  · have hocc := h.path j hj hoj (d + (m + 1 - t)) hcase
    have harr : (home s (keyAt s j) + (d + (m + 1 - t))) % s.size_ =
        (p + (m + 1)) % s.size_ := by
      calc (home s (keyAt s j) + (d + (m + 1 - t))) % s.size_
          = (home s (keyAt s j) + d + (m + 1 - t)) % s.size_ := by
            congr 1
            omega
        _ = ((home s (keyAt s j) + d) % s.size_ + (m + 1 - t)) % s.size_ :=
            (Nat.mod_add_mod (home s (keyAt s j) + d) s.size_ (m + 1 - t)).symm
        _ = ((p + t) % s.size_ + (m + 1 - t)) % s.size_ := by rw [hcontra]
        _ = (p + t + (m + 1 - t)) % s.size_ :=
            Nat.mod_add_mod (p + t) s.size_ (m + 1 - t)
        _ = (p + (m + 1)) % s.size_ := by
            congr 1
            omega
    rw [harr] at hocc
    exact hqfree hocc
  · have hend := h.base.path_end j hj hoj
    refine hjF (t + (pslAt s j - 1 - d)) (by omega) ?_
    conv_lhs => rw [hend]
    calc (home s (keyAt s j) + (pslAt s j - 1)) % s.size_
        = (home s (keyAt s j) + d + (pslAt s j - 1 - d)) % s.size_ := by
          congr 1
          omega
      _ = ((home s (keyAt s j) + d) % s.size_ + (pslAt s j - 1 - d)) %
            s.size_ :=
          (Nat.mod_add_mod (home s (keyAt s j) + d) s.size_
            (pslAt s j - 1 - d)).symm
      _ = ((p + t) % s.size_ + (pslAt s j - 1 - d)) % s.size_ := by
          rw [hcontra]
      _ = (p + t + (pslAt s j - 1 - d)) % s.size_ :=
          Nat.mod_add_mod (p + t) s.size_ (pslAt s j - 1 - d)
      _ = (p + (t + (pslAt s j - 1 - d))) % s.size_ := by
          congr 1
          omega

end RobinHood.HashMap

namespace RobinHood.HashMap

variable {K V : Type} [DecidableEq K] [Inhabited K] [Inhabited V]

/-- Full specification of `DeleteElementByPosition` with repair: deleting the
occupied slot `p` removes exactly the binding stored there, decrements the
count, keeps the capacity, preserves every other binding, and re-establishes
the invariant. -/
theorem deleteByPosition_spec {s : HashMap K V} (h : Inv s) {p : Nat}
    (hp : p < s.size_) (ho : Occ s p) :
    Inv (DeleteElementByPositionF 2 s p) ∧
    (DeleteElementByPositionF 2 s p).size_ = s.size_ ∧
    (DeleteElementByPositionF 2 s p).hash = s.hash ∧
    (DeleteElementByPositionF 2 s p).element_count_ + 1 = s.element_count_ ∧
    (∀ k v, HasKeyVal (DeleteElementByPositionF 2 s p) k v ↔
      (HasKeyVal s k v ∧ k ≠ keyAt s p)) := by
  have hn : 0 < s.size_ := h.base.size_pos
  obtain ⟨hB1, hsz1, hhash1, hdata1, hpsl1, hcnt1, hnocc1, hocc1⟩ :=
    deleteNoFix_spec h.base hp ho
  obtain ⟨s₁, hs₁⟩ : ∃ t, DeleteNoFix s p = t := ⟨_, rfl⟩
  rw [hs₁] at hB1 hsz1 hhash1 hdata1 hpsl1 hcnt1 hnocc1 hocc1
  have hmain : DeleteElementByPositionF 2 s p = FixPositionF 2 s₁ p := by
    rw [← hs₁]
    rfl
  have hp1 : p < s₁.size_ := by rw [hsz1]; exact hp
  have hn1 : 0 < s₁.size_ := by omega
  have hfix : FixPositionF 2 s₁ p =
      (fixCollectGo s₁ s₁.size_
          (if p + 1 = s₁.size_ then 0 else p + 1) []).2.foldl
        (fun t e => (InsertElementF 2 t e.1 e.2).1)
        (fixCollectGo s₁ s₁.size_
          (if p + 1 = s₁.size_ then 0 else p + 1) []).1 := rfl
  rw [modStep p s₁.size_ hp1] at hfix
  have hiolt : (p + 1) % s₁.size_ < s₁.size_ := Nat.mod_lt _ hn1
  obtain ⟨d₀, hd₀, hd₀eq⟩ := modCover p ((p + 1) % s₁.size_) s₁.size_ hiolt hp1
  have hH : ∃ t, ¬ Occ s₁ (((p + 1) % s₁.size_ + t) % s₁.size_) :=
    ⟨d₀, by rw [hd₀eq]; exact hnocc1⟩
  have hmlt : Nat.find hH < s₁.size_ :=
    lt_of_le_of_lt (Nat.find_min' hH (by rw [hd₀eq]; exact hnocc1)) hd₀
  have hrunocc : ∀ t, t < Nat.find hH →
      Occ s₁ (((p + 1) % s₁.size_ + t) % s₁.size_) := by
    intro t ht
    exact not_not.mp (Nat.find_min hH ht)
  have hstop := Nat.find_spec hH
  have hcol := fixCollectGo_eq (Nat.find hH) s₁ s₁.size_ ((p + 1) % s₁.size_)
    [] hiolt hmlt hmlt hrunocc hstop
  obtain ⟨M, hM⟩ : ∃ x, Nat.find hH = x := ⟨_, rfl⟩
  rw [hM] at hmlt hrunocc hstop hcol
  obtain ⟨run, hrun⟩ : ∃ l, (List.range M).map
      (fun t => ((p + 1) % s₁.size_ + t) % s₁.size_) = l := ⟨_, rfl⟩
  obtain ⟨hB2, hsz2, hhash2, hdata2, hpsl2, hcnt2, hocc2⟩ :=
    deleteRun_spec M s₁ ((p + 1) % s₁.size_) hB1 hiolt (le_of_lt hmlt)
      hrunocc
  rw [hrun] at hcol hB2 hsz2 hhash2 hdata2 hpsl2 hcnt2 hocc2
  obtain ⟨s₂, hs₂⟩ : ∃ x, run.foldl (fun u q => DeleteNoFix u q) s₁ = x :=
    ⟨_, rfl⟩
  rw [hs₂] at hcol hB2 hsz2 hhash2 hdata2 hpsl2 hcnt2 hocc2
  obtain ⟨E, hE⟩ : ∃ l, run.map (fun q => s₁.data_.getD q default) = l :=
    ⟨_, rfl⟩
  rw [hE, List.nil_append] at hcol
  rw [hcol] at hfix
  have hfix2 : FixPositionF 2 s₁ p =
      E.foldl (fun t e => (InsertElementF 2 t e.1 e.2).1) s₂ := hfix
  have hshift : ∀ t : Nat, ((p + 1) % s₁.size_ + t) % s₁.size_ =
      (p + (t + 1)) % s₁.size_ := by
    intro t
    rw [Nat.mod_add_mod]
    congr 1
    omega
  have hps : (p + 0) % s₁.size_ = p := by
    rw [Nat.add_zero, Nat.mod_eq_of_lt hp1]
  have hkey2 : ∀ x, keyAt s₂ x = keyAt s x := by
    intro x
    show (s₂.data_.getD x default).1 = _
    rw [hdata2, hdata1]
    rfl
  have hval2 : ∀ x, valAt s₂ x = valAt s x := by
    intro x
    show (s₂.data_.getD x default).2 = _
    rw [hdata2, hdata1]
    rfl
  have hpslAt2 : ∀ x, pslAt s₂ x = pslAt s x := by
    intro x
    show s₂.psl_.getD x 0 = _
    rw [hpsl2, hpsl1]
    rfl
  have hhome2 : ∀ k, home s₂ k = home s k := by
    intro k
    show s₂.hash k % s₂.size_ = _
    rw [hhash2, hhash1, hsz2, hsz1]
    rfl
  have hocc2' : ∀ x, Occ s₂ x ↔
      (Occ s x ∧ ∀ t, t ≤ M → x ≠ (p + t) % s₁.size_) := by
    intro x
    rw [hocc2 x]
    constructor
    · rintro ⟨hox1, hall⟩
      have hxp : x ≠ p := fun hh => hnocc1 (hh ▸ hox1)
      refine ⟨(hocc1 x hxp).mp hox1, ?_⟩
      intro t htM
      cases t with
      | zero =>
        rw [hps]
        exact hxp
      | succ u =>
        rw [← hshift u]
        exact hall u (by omega)
    · rintro ⟨hox, hall⟩
      have hxp : x ≠ p := by
        have hx0 := hall 0 (by omega)
        rw [hps] at hx0
        exact hx0
      refine ⟨(hocc1 x hxp).mpr hox, ?_⟩
      intro t htM
      rw [hshift t]
      exact hall (t + 1) (by omega)
  have hInv2 : Inv s₂ := by
    refine ⟨hB2, ?_⟩
    intro j hj hoj2 d hd
    rw [hsz2, hsz1] at hj
    obtain ⟨hoj, hjF1⟩ := (hocc2' j).mp hoj2
    have hjF : ∀ t, t ≤ M → j ≠ (p + t) % s.size_ := by
      intro t ht
      rw [← hsz1]
      exact hjF1 t ht
    rw [hpslAt2 j] at hd
    by_cases hMn : M + 1 = s.size_
    · exfalso
      obtain ⟨dj, hdj, hdjeq⟩ := modCover j p s.size_ hp hj
      exact hjF dj (by omega) hdjeq.symm
    · have hq : ¬ Occ s ((p + (M + 1)) % s.size_) := by
        intro hqocc
        have hqp : (p + (M + 1)) % s.size_ ≠ p := by
          intro hh
          have hh2 : (p + (M + 1)) % s.size_ = (p + 0) % s.size_ := by
            rw [hh, Nat.add_zero, Nat.mod_eq_of_lt hp]
          exact modNe (M + 1) 0 p s.size_ (by omega) (by omega)
            (by omega) hh2
        have hq1 : Occ s₁ ((p + (M + 1)) % s.size_) :=
          (hocc1 _ hqp).mpr hqocc
        rw [hshift M, hsz1] at hstop
        exact hstop hq1
      have havoid := path_avoids_freed h (show M + 1 < s.size_ by omega)
        hj hoj hq hjF
      rw [hkey2 j, hhome2, hsz2, hsz1]
      rw [hocc2' _]
      refine ⟨h.path j hj hoj d hd, ?_⟩
      intro t ht
      rw [hsz1]
      exact havoid d hd t ht
  have hrunmem : ∀ q, q ∈ run ↔
      ∃ t, t < M ∧ q = ((p + 1) % s₁.size_ + t) % s₁.size_ := by
    intro q
    rw [← hrun, List.mem_map]
    constructor
    · rintro ⟨t, ht, hte⟩
      exact ⟨t, List.mem_range.mp ht, hte.symm⟩
    · rintro ⟨t, ht, hte⟩
      exact ⟨t, List.mem_range.mpr ht, hte.symm⟩
  have hrunocc1 : ∀ q, q ∈ run → Occ s₁ q := by
    intro q hq
    obtain ⟨t, ht, rfl⟩ := (hrunmem q).mp hq
    exact hrunocc t ht
  have hrunlt : ∀ q, q ∈ run → q < s.size_ := by
    intro q hq
    obtain ⟨t, ht, rfl⟩ := (hrunmem q).mp hq
    rw [← hsz1]
    exact Nat.mod_lt _ hn1
  have hrunp : ∀ q, q ∈ run → q ≠ p :=
    fun q hq hh => hnocc1 (hh ▸ hrunocc1 q hq)
  have hruns : ∀ q, q ∈ run → Occ s q :=
    fun q hq => (hocc1 q (hrunp q hq)).mp (hrunocc1 q hq)
  have hrun_nodup : run.Nodup := by
    rw [← hrun]
    refine List.Nodup.map_on ?_ (List.nodup_range M)
    intro t ht u hu he
    rw [List.mem_range] at ht hu
    by_contra hne
    exact modNe t u ((p + 1) % s₁.size_) s₁.size_ (by omega) (by omega)
      hne he
  have hkeys_nd : (E.map Prod.fst).Nodup := by
    rw [← hE, List.map_map]
    refine List.Nodup.map_on ?_ hrun_nodup
    intro q hq r hr he
    refine h.base.keys_inj q r (hrunlt q hq) (hrunlt r hr) (hruns q hq)
      (hruns r hr) ?_
    show (s.data_.getD q default).1 = (s.data_.getD r default).1
    rw [← hdata1]
    exact he
  have hElen : E.length = M := by
    rw [← hE, List.length_map, ← hrun, List.length_map, List.length_range]
  have habsE : ∀ e, e ∈ E → ¬ HasKey s₂ e.1 := by
    intro e he hkey
    rw [← hE, List.mem_map] at he
    obtain ⟨q, hq, hqe⟩ := he
    obtain ⟨j, hj, hoj2, hjkey⟩ := hkey
    rw [hsz2, hsz1] at hj
    obtain ⟨hoj1, hallrun⟩ := (hocc2 j).mp hoj2
    have hjp : j ≠ p := fun hh => hnocc1 (hh ▸ hoj1)
    have hoj : Occ s j := (hocc1 j hjp).mp hoj1
    have hqe2 : s₁.data_.getD q default = e := hqe
    have hkeyq : keyAt s j = keyAt s q := by
      rw [← hkey2 j, hjkey]
      show e.1 = (s.data_.getD q default).1
      rw [← hdata1, hqe2]
    have hjq : j = q := h.base.keys_inj j q hj (hrunlt q hq) hoj
      (hruns q hq) hkeyq
    obtain ⟨t, ht, hqt⟩ := (hrunmem q).mp hq
    exact hallrun t ht (by rw [hjq, hqt])
  have hload2 : (s₂.element_count_ + E.length) * 100 < 80 * s₂.size_ + 100 := by
    rw [hElen, hsz2, hsz1]
    have hload := h.base.load
    omega
  obtain ⟨hIf, hsf, hhf, hcf, hcontf⟩ :=
    insertElemList_spec 1 E s₂ hInv2 hkeys_nd habsE hload2
  have hIf2 : Inv (E.foldl (fun t e => (InsertElementF 2 t e.1 e.2).1) s₂) :=
    hIf
  have hsf2 : (E.foldl (fun t e =>
      (InsertElementF 2 t e.1 e.2).1) s₂).size_ = s₂.size_ := hsf
  have hhf2 : (E.foldl (fun t e =>
      (InsertElementF 2 t e.1 e.2).1) s₂).hash = s₂.hash := hhf
  have hcf2 : (E.foldl (fun t e =>
      (InsertElementF 2 t e.1 e.2).1) s₂).element_count_ =
      s₂.element_count_ + E.length := hcf
  have hcontf2 : ∀ k v, HasKeyVal (E.foldl (fun t e =>
      (InsertElementF 2 t e.1 e.2).1) s₂) k v ↔
      (HasKeyVal s₂ k v ∨ (k, v) ∈ E) := hcontf
  rw [hmain, hfix2]
  refine ⟨hIf2, by rw [hsf2, hsz2, hsz1], by rw [hhf2, hhash2, hhash1],
    ?_, ?_⟩
  · rw [hcf2, hElen]
    omega
  · intro k v
    rw [hcontf2 k v]
    constructor
    · rintro (hkv2 | hkvE)
      · obtain ⟨j, hj, hoj2, hjkey, hjval⟩ := hkv2
        rw [hsz2, hsz1] at hj
        obtain ⟨hoj1, _⟩ := (hocc2 j).mp hoj2
        have hjp : j ≠ p := fun hh => hnocc1 (hh ▸ hoj1)
        have hoj : Occ s j := (hocc1 j hjp).mp hoj1
        have hjkey2 : keyAt s j = k := by rw [← hkey2 j]; exact hjkey
        have hjval2 : valAt s j = v := by rw [← hval2 j]; exact hjval
        refine ⟨⟨j, hj, hoj, hjkey2, hjval2⟩, ?_⟩
        intro hkp
        exact hjp (h.base.keys_inj j p hj hp hoj ho (by rw [hjkey2, hkp]))
      · rw [← hE, List.mem_map] at hkvE
        obtain ⟨q, hq, hqe⟩ := hkvE
        have hqe2 : s₁.data_.getD q default = (k, v) := hqe
        have hqe3 : s.data_.getD q default = (k, v) := by
          rw [← hdata1]
          exact hqe2
        have hkeyq : keyAt s q = k := by
          show (s.data_.getD q default).1 = k
          rw [hqe3]
        have hvalq : valAt s q = v := by
          show (s.data_.getD q default).2 = v
          rw [hqe3]
        refine ⟨⟨q, hrunlt q hq, hruns q hq, hkeyq, hvalq⟩, ?_⟩
        intro hkp
        exact (hrunp q hq) (h.base.keys_inj q p (hrunlt q hq) hp
          (hruns q hq) ho (by rw [hkeyq, hkp]))
    · rintro ⟨⟨j, hj, hoj, hjkey, hjval⟩, hkp⟩
      have hjp : j ≠ p := by
        intro hh
        rw [hh] at hjkey
        exact hkp hjkey.symm
      by_cases hjrun : j ∈ run
      · right
        rw [← hE, List.mem_map]
        refine ⟨j, hjrun, ?_⟩
        show s₁.data_.getD j default = (k, v)
        rw [hdata1]
        rw [Prod.ext_iff]
        exact ⟨hjkey, hjval⟩
      · left
        refine ⟨j, by rw [hsz2, hsz1]; exact hj, ?_,
          by rw [hkey2 j]; exact hjkey, by rw [hval2 j]; exact hjval⟩
        rw [hocc2 j]
        refine ⟨(hocc1 j hjp).mpr hoj, ?_⟩
        intro t ht hjt
        exact hjrun ((hrunmem j).mpr ⟨t, ht, hjt⟩)

end RobinHood.HashMap

namespace RobinHood.HashMap

variable {K V : Type} [DecidableEq K] [Inhabited K] [Inhabited V]

/-! ### Public operations -/

/-- `erase` of an absent key is a strict no-op. -/
theorem erase_absent {s : HashMap K V} (h : Inv s) (k : K)
    (habs : ¬ HasKey s k) : erase s k = s := by
  have hunf : erase s k =
      (if s.free_places_.getD (GetKeyIndex s k) true then s
        else DeleteElementByPositionF 2 s (GetKeyIndex s k)) := rfl
  obtain ⟨_, hfree⟩ := getKeyIndex_absent h k habs
  rw [hunf, if_pos hfree]

/-- `erase` of a present key removes exactly that key's binding and
decrements the count by one. -/
theorem erase_present_spec {s : HashMap K V} (h : Inv s) {k : K}
    (hk : HasKey s k) :
    Inv (erase s k) ∧ (erase s k).size_ = s.size_ ∧
    (erase s k).hash = s.hash ∧
    (erase s k).element_count_ + 1 = s.element_count_ ∧
    (∀ k' v', HasKeyVal (erase s k) k' v' ↔
      (HasKeyVal s k' v' ∧ k' ≠ k)) := by
  obtain ⟨j, hj, ho, hkey⟩ := hk
  have hunf : erase s k =
      (if s.free_places_.getD (GetKeyIndex s k) true then s
        else DeleteElementByPositionF 2 s (GetKeyIndex s k)) := rfl
  rw [hunf, getKeyIndex_found h j hj ho hkey,
    if_neg (by rw [ho]; exact Bool.false_ne_true)]
  obtain ⟨hI, hs, hh, hc, hcont⟩ := deleteByPosition_spec h hj ho
  refine ⟨hI, hs, hh, hc, ?_⟩
  intro k' v'
  rw [hcont k' v', hkey]

/-- `operator[]` of a present key does not change the table state. -/
theorem getOrInsert_present {s : HashMap K V} (h : Inv s) {k : K}
    (hk : HasKey s k) : (getOrInsert s k).1 = s := by
  obtain ⟨j, hj, ho, hkey⟩ := hk
  have hunf : getOrInsert s k =
      (if s.free_places_.getD (GetKeyIndex s k) true then
        ((InsertElementF 2 s k default).1,
          ((InsertElementF 2 s k default).1.data_.getD
            (InsertElementF 2 s k default).2 default).2)
      else (s, (s.data_.getD (GetKeyIndex s k) default).2)) := rfl
  rw [hunf, getKeyIndex_found h j hj ho hkey,
    if_neg (by rw [ho]; exact Bool.false_ne_true)]

/-- `operator[]` of an absent key reduces to `InsertElement` with a
default-constructed value. -/
theorem getOrInsert_absent_eq {s : HashMap K V} (h : Inv s) (k : K)
    (habs : ¬ HasKey s k) :
    (getOrInsert s k).1 = (InsertElementF 2 s k default).1 := by
  have hunf : getOrInsert s k =
      (if s.free_places_.getD (GetKeyIndex s k) true then
        ((InsertElementF 2 s k default).1,
          ((InsertElementF 2 s k default).1.data_.getD
            (InsertElementF 2 s k default).2 default).2)
      else (s, (s.data_.getD (GetKeyIndex s k) default).2)) := rfl
  obtain ⟨_, hfree⟩ := getKeyIndex_absent h k habs
  rw [hunf, if_pos hfree]

/-- The `clear` loop: with fuel at least the element count, the table is
emptied while the capacity and hash stay unchanged, and the invariant is
preserved. -/
theorem clearGo_spec : ∀ (fuel : Nat) (s : HashMap K V), Inv s →
    s.element_count_ ≤ fuel →
    Inv (clearGo fuel s) ∧ (clearGo fuel s).size_ = s.size_ ∧
    (clearGo fuel s).hash = s.hash ∧
    (clearGo fuel s).element_count_ = 0 := by
  intro fuel
  induction fuel with
  | zero =>
    intro s hI hle
    refine ⟨hI, rfl, rfl, ?_⟩
    show s.element_count_ = 0
    omega
  | succ f ih =>
    intro s hI hle
    by_cases hemp : s.element_positions_.isEmpty = true
    · have hstep : clearGo (f + 1) s = s := by
        show (if s.element_positions_.isEmpty then s else _) = s
        rw [if_pos hemp]
      rw [hstep]
      refine ⟨hI, rfl, rfl, ?_⟩
      rw [List.isEmpty_iff] at hemp
      rw [hI.base.count_eq, hemp]
      rfl
    · have hne : s.element_positions_ ≠ [] := by
        intro hh
        rw [hh] at hemp
        exact hemp rfl
      have hlen : 0 < s.element_positions_.length :=
        List.length_pos.mpr hne
      have hp0mem : s.element_positions_.getD 0 0 ∈ s.element_positions_ :=
        getD_mem _ _ _ hlen
      have hp0lt : s.element_positions_.getD 0 0 < s.size_ :=
        hI.base.pos_lt _ hp0mem
      have hp0occ : Occ s (s.element_positions_.getD 0 0) :=
        hI.base.pos_occ _ hp0mem
      have hunf : clearGo (f + 1) s = clearGo f
          (DeleteElementByPositionF 2 s (s.element_positions_.getD 0 0)) := by
        show (if s.element_positions_.isEmpty then s else _) = _
        rw [if_neg hemp]
        rfl
      obtain ⟨hI2, hs2, hh2, hc2, _⟩ := deleteByPosition_spec hI hp0lt hp0occ
      obtain ⟨hI3, hs3, hh3, hc3⟩ := ih _ hI2 (by omega)
      rw [hunf]
      exact ⟨hI3, by rw [hs3, hs2], by rw [hh3, hh2], hc3⟩

/-- `clear()` empties the table and keeps the capacity. -/
theorem clear_spec {s : HashMap K V} (h : Inv s) :
    Inv (clear s) ∧ (clear s).size_ = s.size_ ∧ (clear s).hash = s.hash ∧
    (clear s).element_count_ = 0 :=
  clearGo_spec s.element_count_ s h (le_refl _)

/-- Every reachable state satisfies the representation invariant. -/
theorem reachable_inv {s : HashMap K V} (hr : Reachable s) : Inv s := by
  induction hr with
  | fresh hash => exact mkHashMap_inv hash
  | ins s e _ ih =>
    obtain ⟨k, v⟩ := e
    by_cases hk : HasKey s k
    · rw [insert_mem_eq ih v hk]
      exact ih
    · exact (insert_not_mem_spec ih k v hk).1
  | ers s k _ ih =>
    by_cases hk : HasKey s k
    · exact (erase_present_spec ih hk).1
    · rw [erase_absent ih k hk]
      exact ih
  | idx s k _ ih =>
    by_cases hk : HasKey s k
    · rw [getOrInsert_present ih hk]
      exact ih
    · rw [getOrInsert_absent_eq ih k hk]
      exact (insertElementF_spec 0 ih k default hk).1
  | clr s _ ih => exact (clear_spec ih).1

end RobinHood.HashMap

namespace RobinHood.HashMap

variable {K V : Type} [DecidableEq K] [Inhabited K] [Inhabited V]

theorem containsKey_true {s : HashMap K V} (h : Inv s) {k : K}
    (hk : HasKey s k) : containsKey s k = true := by
  obtain ⟨j, hj, ho, hkey⟩ := hk
  unfold containsKey
  rw [getKeyIndex_found h j hj ho hkey, ho]
  rfl

theorem containsKey_false {s : HashMap K V} (h : Inv s) {k : K}
    (hk : ¬ HasKey s k) : containsKey s k = false := by
  unfold containsKey
  rw [(getKeyIndex_absent h k hk).2]
  rfl

/-- Folding public `insert` over a list of pairwise-distinct fresh keys:
the invariant is preserved, the count grows by the list length, the capacity
never shrinks, and the contents grow by exactly the list. -/
theorem insertList_spec :
    ∀ (l : List (K × V)) (s : HashMap K V),
    Inv s → (l.map Prod.fst).Nodup → (∀ e ∈ l, ¬ HasKey s e.1) →
    Inv (l.foldl insert s) ∧
    (l.foldl insert s).hash = s.hash ∧
    (l.foldl insert s).element_count_ = s.element_count_ + l.length ∧
    s.size_ ≤ (l.foldl insert s).size_ ∧
    (∀ k v, HasKeyVal (l.foldl insert s) k v ↔
      (HasKeyVal s k v ∨ (k, v) ∈ l)) := by
  intro l
  induction l with
  | nil =>
    intro s hI _ _
    refine ⟨hI, rfl, rfl, le_refl _, ?_⟩
    intro k v
    simp
  | cons e l ihl =>
    intro s hI hnd habs
    obtain ⟨k₀, v₀⟩ := e
    rw [List.foldl_cons]
    have habs0 : ¬ HasKey s k₀ := habs (k₀, v₀) (List.mem_cons_self _ _)
    obtain ⟨hI1, hh1, hc1, hcont1, hszc, hszn⟩ :=
      insert_not_mem_spec hI k₀ v₀ habs0
    have hknotin : k₀ ∉ l.map Prod.fst := by
      rw [List.map_cons] at hnd
      exact (List.nodup_cons.mp hnd).1
    obtain ⟨hI2, hh2, hc2, hsz2, hcont2⟩ := ihl (insert s (k₀, v₀)) hI1
      (by rw [List.map_cons] at hnd; exact (List.nodup_cons.mp hnd).2)
      (by
        intro x hx hkx
        rw [hasKey_iff] at hkx
        obtain ⟨w, hw⟩ := hkx
        rw [hcont1 x.1 w] at hw
        rcases hw with hw | ⟨hw1, _⟩
        · exact habs x (List.mem_cons_of_mem _ hx)
            ⟨_, hw.choose_spec.1, hw.choose_spec.2.1, hw.choose_spec.2.2.1⟩
        · exact hknotin (by rw [← hw1]; exact List.mem_map_of_mem Prod.fst hx))
    have hsz1 : s.size_ ≤ (insert s (k₀, v₀)).size_ := by
      by_cases hcool : s.element_count_ * 100 < 80 * s.size_
      · rw [hszc hcool]
      · rw [hszn hcool]
        omega
    refine ⟨hI2, by rw [hh2, hh1], ?_, le_trans hsz1 hsz2, ?_⟩
    · rw [hc2, hc1, List.length_cons]
      omega
    · intro k v
      rw [hcont2 k v, hcont1 k v, List.mem_cons]
      constructor
      · rintro ((hx | ⟨h1, h2⟩) | hx)
        · exact Or.inl hx
        · refine Or.inr (Or.inl ?_)
          rw [Prod.ext_iff]
          exact ⟨h1, h2⟩
        · exact Or.inr (Or.inr hx)
      · rintro (hx | hx | hx)
        · exact Or.inl (Or.inl hx)
        · refine Or.inl (Or.inr ?_)
          rw [Prod.ext_iff] at hx
          exact hx
        · exact Or.inr hx

/-- As long as the inserted batch keeps the running count strictly below the
point where the pre-insert load check fails, the capacity never changes. -/
theorem insertList_size_stable :
    ∀ (l : List (K × V)) (s : HashMap K V),
    Inv s → (l.map Prod.fst).Nodup → (∀ e ∈ l, ¬ HasKey s e.1) →
    (s.element_count_ + l.length) * 100 < 80 * s.size_ + 100 →
    (l.foldl insert s).size_ = s.size_ := by
  intro l
  induction l with
  | nil =>
    intro s _ _ _ _
    rfl
  | cons e l ihl =>
    intro s hI hnd habs hload
    obtain ⟨k₀, v₀⟩ := e
    rw [List.foldl_cons]
    have habs0 : ¬ HasKey s k₀ := habs (k₀, v₀) (List.mem_cons_self _ _)
    have hcool : s.element_count_ * 100 < 80 * s.size_ := by
      rw [List.length_cons] at hload
      omega
    obtain ⟨hI1, hh1, hc1, hcont1, hszc, _⟩ :=
      insert_not_mem_spec hI k₀ v₀ habs0
    have hknotin : k₀ ∉ l.map Prod.fst := by
      rw [List.map_cons] at hnd
      exact (List.nodup_cons.mp hnd).1
    have hsz1 : (insert s (k₀, v₀)).size_ = s.size_ := hszc hcool
    rw [ihl (insert s (k₀, v₀)) hI1
      (by rw [List.map_cons] at hnd; exact (List.nodup_cons.mp hnd).2)
      (by
        intro x hx hkx
        rw [hasKey_iff] at hkx
        obtain ⟨w, hw⟩ := hkx
        rw [hcont1 x.1 w] at hw
        rcases hw with hw | ⟨hw1, _⟩
        · exact habs x (List.mem_cons_of_mem _ hx)
            ⟨_, hw.choose_spec.1, hw.choose_spec.2.1, hw.choose_spec.2.2.1⟩
        · exact hknotin (by rw [← hw1]; exact List.mem_map_of_mem Prod.fst hx))
      (by
        rw [hc1, hsz1]
        rw [List.length_cons] at hload
        omega), hsz1]

end RobinHood.HashMap

namespace RobinHood.HashMap

variable {K V : Type} [DecidableEq K] [Inhabited K] [Inhabited V]

/-- The three phases of inserting 100 fresh bindings into a fresh table:
52 inserts at capacity 64 (every load check passes), a 53rd insert whose
load check fails (52·100 ≥ 80·64) and rebuilds to capacity 256, and 47
further inserts at capacity 256 (every load check passes again). -/
theorem threePhase_spec (hash : K → Nat) (A B : List (K × V)) (xk : K)
    (xv : V) (hnd : ((A ++ (xk, xv) :: B).map Prod.fst).Nodup)
    (hlenA : A.length = 52) (hlenB : B.length = 47) :
    ((A ++ (xk, xv) :: B).foldl insert (mkHashMap hash)).size_ = 256 ∧
    ((A ++ (xk, xv) :: B).foldl insert (mkHashMap hash)).element_count_ =
      100 ∧
    ∀ k v, (k, v) ∈ A ++ (xk, xv) :: B →
      at? ((A ++ (xk, xv) :: B).foldl insert (mkHashMap hash)) k = some v := by
  rw [List.map_append, List.map_cons, List.nodup_append] at hnd
  obtain ⟨hndA, hndxB, hdisj⟩ := hnd
  rw [List.nodup_cons] at hndxB
  obtain ⟨hxB, hndB⟩ := hndxB
  have hc0 : (mkHashMap hash : HashMap K V).element_count_ = 0 := rfl
  have hs064 : (mkHashMap hash : HashMap K V).size_ = 64 := rfl
  have hI0 : Inv (mkHashMap hash : HashMap K V) := mkHashMap_inv hash
  have habsA : ∀ e ∈ A, ¬ HasKey (mkHashMap hash : HashMap K V) e.1 :=
    fun e _ => not_hasKey_mk hash e.1
  obtain ⟨hIA, hhA, hcA, _, hcontA⟩ :=
    insertList_spec A (mkHashMap hash) hI0 hndA habsA
  have hc52 : (A.foldl insert (mkHashMap hash)).element_count_ = 52 := by
    rw [hcA, hc0, hlenA]
  have hload1 : ((mkHashMap hash : HashMap K V).element_count_ + A.length) *
      100 < 80 * (mkHashMap hash : HashMap K V).size_ + 100 := by
    rw [hc0, hs064, hlenA]
    omega
  have hszA : (A.foldl insert (mkHashMap hash)).size_ = 64 := by
    rw [insertList_size_stable A (mkHashMap hash) hI0 hndA habsA hload1, hs064]
  have hxA : xk ∉ A.map Prod.fst :=
    fun hmem => hdisj hmem (List.mem_cons_self _ _)
  have habsx : ¬ HasKey (A.foldl insert (mkHashMap hash)) xk := by
    intro hk
    obtain ⟨w, hw⟩ := (hasKey_iff _ _).mp hk
    rw [hcontA xk w] at hw
    rcases hw with hw | hw
    · exact not_hasKeyVal_mk hash xk w hw
    · exact hxA (List.mem_map_of_mem Prod.fst hw)
  have hnotcool : ¬ ((A.foldl insert (mkHashMap hash)).element_count_ * 100 <
      80 * (A.foldl insert (mkHashMap hash)).size_) := by
    rw [hc52, hszA]
    omega
  obtain ⟨hIx, hhx, hcx, hcontx, _, hszn⟩ :=
    insert_not_mem_spec hIA xk xv habsx
  have hsz256 : (insert (A.foldl insert (mkHashMap hash)) (xk, xv)).size_ =
      256 := by
    rw [hszn hnotcool, hszA]
  have hc53 : (insert (A.foldl insert (mkHashMap hash))
      (xk, xv)).element_count_ = 53 := by
    rw [hcx, hc52]
  have habsB : ∀ e ∈ B,
      ¬ HasKey (insert (A.foldl insert (mkHashMap hash)) (xk, xv)) e.1 := by
    intro e he hk
    obtain ⟨w, hw⟩ := (hasKey_iff _ _).mp hk
    rw [hcontx e.1 w] at hw
    have he1 : e.1 ∈ B.map Prod.fst := List.mem_map_of_mem Prod.fst he
    rcases hw with hw | ⟨hw1, _⟩
    · rw [hcontA e.1 w] at hw
      rcases hw with hw | hw
      · exact not_hasKeyVal_mk hash e.1 w hw
      · exact hdisj (List.mem_map_of_mem Prod.fst hw)
          (List.mem_cons_of_mem _ he1)
    · rw [hw1] at he1
      exact hxB he1
  have hloadB : ((insert (A.foldl insert (mkHashMap hash))
      (xk, xv)).element_count_ + B.length) * 100 <
      80 * (insert (A.foldl insert (mkHashMap hash)) (xk, xv)).size_ +
        100 := by
    rw [hc53, hlenB, hsz256]
    omega
  obtain ⟨hIB, hhB, hcB, _, hcontB⟩ :=
    insertList_spec B (insert (A.foldl insert (mkHashMap hash)) (xk, xv))
      hIx hndB habsB
  have hszB : (B.foldl insert (insert (A.foldl insert (mkHashMap hash))
      (xk, xv))).size_ = 256 := by
    rw [insertList_size_stable B
      (insert (A.foldl insert (mkHashMap hash)) (xk, xv)) hIx hndB habsB
      hloadB, hsz256]
  have hfold : (A ++ (xk, xv) :: B).foldl insert (mkHashMap hash) =
      B.foldl insert (insert (A.foldl insert (mkHashMap hash)) (xk, xv)) := by
    rw [List.foldl_append, List.foldl_cons]
  refine ⟨by rw [hfold, hszB], by rw [hfold, hcB, hc53, hlenB], ?_⟩
  intro k v hmem
  rw [hfold, at?_eq_some_iff hIB k v, hcontB k v, hcontx k v, hcontA k v]
  rcases List.mem_append.mp hmem with hm | hm
  · exact Or.inl (Or.inl (Or.inr hm))
  · rcases List.mem_cons.mp hm with hm | hm
    · refine Or.inl (Or.inr ?_)
      rw [Prod.ext_iff] at hm
      exact ⟨hm.1, hm.2⟩
    · exact Or.inr hm

/-! ### The claims -/

/-- C1: starting from a fresh table, folding `insert` over any list of
bindings with pairwise distinct keys leaves every inserted binding intact:
`at` returns exactly the inserted value and `find` does not compare equal
to the end iterator, for every hash function. -/
theorem C1_insert_roundtrip (hash : K → Nat) (l : List (K × V))
    (hnd : (l.map Prod.fst).Nodup) (k : K) (v : V) (hmem : (k, v) ∈ l) :
    at? (l.foldl insert (mkHashMap hash)) k = some v ∧
    find (l.foldl insert (mkHashMap hash)) k ≠
      endIter (l.foldl insert (mkHashMap hash)) := by
  obtain ⟨hI, _, _, _, hcont⟩ := insertList_spec l (mkHashMap hash)
    (mkHashMap_inv hash) hnd (fun e _ => not_hasKey_mk hash e.1)
  have hkv : HasKeyVal (l.foldl insert (mkHashMap hash)) k v :=
    (hcont k v).mpr (Or.inr hmem)
  refine ⟨(at?_eq_some_iff hI k v).mpr hkv, ?_⟩
  rw [find_ne_end_iff hI]
  exact (hasKey_iff _ k).mpr ⟨v, hkv⟩

theorem C1_witness :
    ((([((1 : Nat), (10 : Nat)), (2, 20)]).map Prod.fst).Nodup ∧
      ((2 : Nat), (20 : Nat)) ∈ [((1 : Nat), (10 : Nat)), (2, 20)]) ∧
    (at? ([((1 : Nat), (10 : Nat)), (2, 20)].foldl insert
        (mkHashMap (fun x => x))) 2 = some 20 ∧
      find ([((1 : Nat), (10 : Nat)), (2, 20)].foldl insert
        (mkHashMap (fun x => x))) 2 ≠
        endIter ([((1 : Nat), (10 : Nat)), (2, 20)].foldl insert
          (mkHashMap (fun x => x)))) :=
  ⟨⟨by decide, by decide⟩,
    C1_insert_roundtrip (fun x => x) [(1, 10), (2, 20)] (by decide) 2 20
      (by decide)⟩

/-- C2: for every reachable state and every key `k`: after `erase k`,
`find k` compares equal to the end iterator; the count drops by exactly one
when `k` was present (`containsKey`, the find-succeeds test) and is
unchanged otherwise; and any other key that was present keeps its stored
value. -/
theorem C2_erase_repair (s : HashMap K V) (hr : Reachable s) (k k' : K)
    (v' : V) :
    find (erase s k) k = endIter (erase s k) ∧
    (erase s k).element_count_ =
      (if containsKey s k then s.element_count_ - 1 else s.element_count_) ∧
    (k' ≠ k → at? s k' = some v' → at? (erase s k) k' = some v') := by
  have hI := reachable_inv hr
  by_cases hk : HasKey s k
  · obtain ⟨hI2, _, _, hc, hcont⟩ := erase_present_spec hI hk
    have habs2 : ¬ HasKey (erase s k) k := by
      intro hk2
      obtain ⟨w, hw⟩ := (hasKey_iff _ _).mp hk2
      rw [hcont k w] at hw
      exact hw.2 rfl
    refine ⟨find_of_absent hI2 habs2, ?_, ?_⟩
    · rw [if_pos (containsKey_true hI hk)]
      omega
    · intro hne hv'
      rw [at?_eq_some_iff hI k' v'] at hv'
      rw [at?_eq_some_iff hI2 k' v', hcont k' v']
      exact ⟨hv', hne⟩
  · have hcf : containsKey s k = false := containsKey_false hI hk
    have he := erase_absent hI k hk
    rw [he]
    refine ⟨find_of_absent hI hk, ?_, fun _ hv' => hv'⟩
    rw [if_neg (by rw [hcf]; exact Bool.false_ne_true)]

theorem C2_witness :
    Reachable (insert (insert (mkHashMap (fun x => x) : HashMap Nat Nat)
        (1, 10)) (2, 20)) ∧
    (find (erase (insert (insert (mkHashMap (fun x => x) : HashMap Nat Nat)
        (1, 10)) (2, 20)) 1) 1 =
      endIter (erase (insert (insert (mkHashMap (fun x => x) :
        HashMap Nat Nat) (1, 10)) (2, 20)) 1) ∧
      (erase (insert (insert (mkHashMap (fun x => x) : HashMap Nat Nat)
        (1, 10)) (2, 20)) 1).element_count_ =
        (if containsKey (insert (insert (mkHashMap (fun x => x) :
            HashMap Nat Nat) (1, 10)) (2, 20)) 1 then
          (insert (insert (mkHashMap (fun x => x) : HashMap Nat Nat)
            (1, 10)) (2, 20)).element_count_ - 1
        else
          (insert (insert (mkHashMap (fun x => x) : HashMap Nat Nat)
            (1, 10)) (2, 20)).element_count_) ∧
      ((2 : Nat) ≠ 1 →
        at? (insert (insert (mkHashMap (fun x => x) : HashMap Nat Nat)
          (1, 10)) (2, 20)) 2 = some 20 →
        at? (erase (insert (insert (mkHashMap (fun x => x) :
          HashMap Nat Nat) (1, 10)) (2, 20)) 1) 2 = some 20)) :=
  ⟨Reachable.ins _ _ (Reachable.ins _ _ (Reachable.fresh _)),
    C2_erase_repair _
      (Reachable.ins _ _ (Reachable.ins _ _ (Reachable.fresh _)))
      1 2 20⟩

/-- C3: inserting a key that is already present is a strict no-op: the
resulting state is equal to the old one, so the stored value is still the
one from the first insertion and the count is unchanged. -/
theorem C3_insert_no_overwrite (s : HashMap K V) (hr : Reachable s)
    (k : K) (v v₀ : V) (hv : at? s k = some v₀) :
    insert s (k, v) = s ∧ at? (insert s (k, v)) k = some v₀ ∧
    (insert s (k, v)).element_count_ = s.element_count_ := by
  have hI := reachable_inv hr
  have hk : HasKey s k := by
    rw [at?_eq_some_iff hI k v₀] at hv
    exact (hasKey_iff s k).mpr ⟨v₀, hv⟩
  have he := insert_mem_eq hI v hk
  exact ⟨he, by rw [he]; exact hv, by rw [he]⟩

theorem C3_witness :
    (Reachable (insert (mkHashMap (fun x => x) : HashMap Nat Nat)
        (1, 10)) ∧
      at? (insert (mkHashMap (fun x => x) : HashMap Nat Nat) (1, 10)) 1 =
        some 10) ∧
    (insert (insert (mkHashMap (fun x => x) : HashMap Nat Nat) (1, 10))
        (1, 99) =
      insert (mkHashMap (fun x => x) : HashMap Nat Nat) (1, 10) ∧
      at? (insert (insert (mkHashMap (fun x => x) : HashMap Nat Nat)
        (1, 10)) (1, 99)) 1 = some 10 ∧
      (insert (insert (mkHashMap (fun x => x) : HashMap Nat Nat) (1, 10))
          (1, 99)).element_count_ =
        (insert (mkHashMap (fun x => x) : HashMap Nat Nat)
          (1, 10)).element_count_) :=
  ⟨⟨Reachable.ins _ _ (Reachable.fresh _), by decide⟩,
    C3_insert_no_overwrite _ (Reachable.ins _ _ (Reachable.fresh _))
      1 99 10 (by decide)⟩

/-- C4: `Rebuild` preserves the contents: every key present before the
resize is still bound to the same value afterwards, and the element count
is unchanged by the resize itself. -/
theorem C4_rebuild_preserves (s : HashMap K V) (hr : Reachable s) (k : K)
    (v : V) (hv : at? s k = some v) :
    at? (RebuildF 1 s) k = some v ∧
    (RebuildF 1 s).element_count_ = s.element_count_ := by
  have hI := reachable_inv hr
  obtain ⟨hI2, _, _, hc2, hcont2⟩ := rebuildF_spec 0 hI
  have hI2' : Inv (RebuildF 1 s) := hI2
  have hc2' : (RebuildF 1 s).element_count_ = s.element_count_ := hc2
  have hcont2' : ∀ k' v', HasKeyVal (RebuildF 1 s) k' v' ↔
      HasKeyVal s k' v' := hcont2
  rw [at?_eq_some_iff hI k v] at hv
  exact ⟨(at?_eq_some_iff hI2' k v).mpr ((hcont2' k v).mpr hv), hc2'⟩

theorem C4_witness :
    (Reachable (insert (mkHashMap (fun x => x) : HashMap Nat Nat)
        (1, 10)) ∧
      at? (insert (mkHashMap (fun x => x) : HashMap Nat Nat) (1, 10)) 1 =
        some 10) ∧
    (at? (RebuildF 1 (insert (mkHashMap (fun x => x) : HashMap Nat Nat)
        (1, 10))) 1 = some 10 ∧
      (RebuildF 1 (insert (mkHashMap (fun x => x) : HashMap Nat Nat)
        (1, 10))).element_count_ =
        (insert (mkHashMap (fun x => x) : HashMap Nat Nat)
          (1, 10)).element_count_) :=
  ⟨⟨Reachable.ins _ _ (Reachable.fresh _), by decide⟩,
    C4_rebuild_preserves _ (Reachable.ins _ _ (Reachable.fresh _)) 1 10
      (by decide)⟩

/-- C5 counterexample: a sequence of 52 public inserts of the distinct keys
`0..51` (identity hash) into a fresh table ends with an insert after which
`element_count * 100 < 80 * capacity` fails: the load check uses the
pre-insert count, so the 52nd insert is admitted at capacity 64 and leaves
`52 * 100 = 5200 ≥ 5120 = 80 * 64`. -/
theorem C5_counterexample :
    ¬ ((((List.range 52).map (fun i => ((i : Nat), (0 : Nat)))).foldl insert
      (mkHashMap (fun k => k))).element_count_ * 100 <
      80 * (((List.range 52).map (fun i => ((i : Nat), (0 : Nat)))).foldl
        insert (mkHashMap (fun k => k))).size_) := by
  decide

/-- C5 (amended): after any insert from a reachable state, the state
satisfies `element_count * 100 < 80 * capacity + 100`: the 80% bound can be
exceeded only by the single element admitted after its pre-insert load
check passed. -/
theorem C5_load_after_insert (s : HashMap K V) (hr : Reachable s)
    (e : K × V) :
    (insert s e).element_count_ * 100 < 80 * (insert s e).size_ + 100 :=
  (reachable_inv (Reachable.ins s e hr)).base.load

theorem C5_witness :
    Reachable (mkHashMap (fun x => x) : HashMap Nat Nat) ∧
    (insert (mkHashMap (fun x => x) : HashMap Nat Nat)
        (1, 2)).element_count_ * 100 <
      80 * (insert (mkHashMap (fun x => x) : HashMap Nat Nat)
        (1, 2)).size_ + 100 :=
  ⟨Reachable.fresh _,
    C5_load_after_insert _ (Reachable.fresh (fun x => x)) (1, 2)⟩

/-- C6: in every reachable state the keys yielded by iterating from `begin`
to `end` are pairwise distinct, a key is yielded exactly when `find`
succeeds on it, and the number of iteration steps equals the element
count. -/
theorem C6_iteration_matches_find (s : HashMap K V) (hr : Reachable s)
    (k : K) :
    (iterKeys s).Nodup ∧
    (k ∈ iterKeys s ↔ find s k ≠ endIter s) ∧
    (iterKeys s).length = s.element_count_ := by
  have hI := reachable_inv hr
  refine ⟨?_, ?_, ?_⟩
  · exact List.Nodup.map_on (fun p hp q hq he =>
      hI.base.keys_inj p q (hI.base.pos_lt p hp) (hI.base.pos_lt q hq)
        (hI.base.pos_occ p hp) (hI.base.pos_occ q hq) he) hI.base.pos_nodup
  · rw [find_ne_end_iff hI]
    unfold iterKeys
    rw [List.mem_map]
    constructor
    · rintro ⟨p, hp, he⟩
      exact ⟨p, hI.base.pos_lt p hp, hI.base.pos_occ p hp, he⟩
    · rintro ⟨j, hj, ho, hkey⟩
      exact ⟨j, hI.base.occ_pos j hj ho, hkey⟩
  · unfold iterKeys
    rw [List.length_map]
    exact hI.base.count_eq.symm

theorem C6_witness :
    Reachable (insert (mkHashMap (fun x => x) : HashMap Nat Nat) (1, 10)) ∧
    ((iterKeys (insert (mkHashMap (fun x => x) : HashMap Nat Nat)
        (1, 10))).Nodup ∧
      ((1 : Nat) ∈ iterKeys (insert (mkHashMap (fun x => x) :
          HashMap Nat Nat) (1, 10)) ↔
        find (insert (mkHashMap (fun x => x) : HashMap Nat Nat) (1, 10)) 1 ≠
          endIter (insert (mkHashMap (fun x => x) : HashMap Nat Nat)
            (1, 10))) ∧
      (iterKeys (insert (mkHashMap (fun x => x) : HashMap Nat Nat)
          (1, 10))).length =
        (insert (mkHashMap (fun x => x) : HashMap Nat Nat)
          (1, 10)).element_count_) :=
  ⟨Reachable.ins _ _ (Reachable.fresh _),
    C6_iteration_matches_find _ (Reachable.ins _ _ (Reachable.fresh _)) 1⟩

/-- C7: the lookup `at` fails (the thrown NotFoundError, modelled as
`none`) exactly when the key is absent, and returns `some` of the stored
value exactly when that binding is present; being a pure function of the
state in this embedding, it leaves the state unchanged, and no other
public operation is modelled as failing. -/
theorem C7_at_error_iff_absent (s : HashMap K V) (hr : Reachable s) (k : K)
    (v : V) :
    (at? s k = none ↔ ¬ HasKey s k) ∧
    (at? s k = some v ↔ HasKeyVal s k v) :=
  ⟨at?_eq_none_iff (reachable_inv hr) k,
    at?_eq_some_iff (reachable_inv hr) k v⟩

theorem C7_witness :
    Reachable (mkHashMap (fun x => x) : HashMap Nat Nat) ∧
    ((at? (mkHashMap (fun x => x) : HashMap Nat Nat) 1 = none ↔
        ¬ HasKey (mkHashMap (fun x => x) : HashMap Nat Nat) 1) ∧
      (at? (mkHashMap (fun x => x) : HashMap Nat Nat) 1 = some 0 ↔
        HasKeyVal (mkHashMap (fun x => x) : HashMap Nat Nat) 1 0)) :=
  ⟨Reachable.fresh _,
    C7_at_error_iff_absent _ (Reachable.fresh (fun x => x)) 1 0⟩

/-- C8: totality on reachable states: the element count stays strictly
below the capacity (so a free slot always exists and the probe walk of
`GetKeyIndex` reaches its exit — a free slot or the key — within the fuel),
absent-key `erase` is a strict no-op and absent-key `find` compares equal
to the end iterator, and `insert`, `erase` and `operator[]` all return
well-formed states again. -/
theorem C8_operations_total (s : HashMap K V) (hr : Reachable s) (k : K)
    (v : V) :
    s.element_count_ < s.size_ ∧
    (s.free_places_.getD (GetKeyIndex s k) true = true ∨
      keyAt s (GetKeyIndex s k) = k) ∧
    (¬ HasKey s k → erase s k = s) ∧
    (¬ HasKey s k → find s k = endIter s) ∧
    Inv (insert s (k, v)) ∧ Inv (erase s k) ∧ Inv ((getOrInsert s k).1) := by
  have hI := reachable_inv hr
  refine ⟨hI.base.count_lt, ?_, fun h => erase_absent hI k h,
    fun h => find_of_absent hI h,
    reachable_inv (Reachable.ins s (k, v) hr),
    reachable_inv (Reachable.ers s k hr),
    reachable_inv (Reachable.idx s k hr)⟩
  by_cases hk : HasKey s k
  · obtain ⟨j, hj, ho, hkey⟩ := hk
    rw [getKeyIndex_found hI j hj ho hkey]
    exact Or.inr hkey
  · exact Or.inl (getKeyIndex_absent hI k hk).2

theorem C8_witness :
    Reachable (mkHashMap (fun x => x) : HashMap Nat Nat) ∧
    ((mkHashMap (fun x => x) : HashMap Nat Nat).element_count_ <
      (mkHashMap (fun x => x) : HashMap Nat Nat).size_ ∧
      ((mkHashMap (fun x => x) : HashMap Nat Nat).free_places_.getD
          (GetKeyIndex (mkHashMap (fun x => x) : HashMap Nat Nat) 1) true =
          true ∨
        keyAt (mkHashMap (fun x => x) : HashMap Nat Nat)
          (GetKeyIndex (mkHashMap (fun x => x) : HashMap Nat Nat) 1) = 1) ∧
      (¬ HasKey (mkHashMap (fun x => x) : HashMap Nat Nat) 1 →
        erase (mkHashMap (fun x => x) : HashMap Nat Nat) 1 =
          (mkHashMap (fun x => x) : HashMap Nat Nat)) ∧
      (¬ HasKey (mkHashMap (fun x => x) : HashMap Nat Nat) 1 →
        find (mkHashMap (fun x => x) : HashMap Nat Nat) 1 =
          endIter (mkHashMap (fun x => x) : HashMap Nat Nat)) ∧
      Inv (insert (mkHashMap (fun x => x) : HashMap Nat Nat) (1, 2)) ∧
      Inv (erase (mkHashMap (fun x => x) : HashMap Nat Nat) 1) ∧
      Inv ((getOrInsert (mkHashMap (fun x => x) : HashMap Nat Nat) 1).1)) :=
  ⟨Reachable.fresh _,
    C8_operations_total _ (Reachable.fresh (fun x => x)) 1 2⟩

/-- C9: inserting keys 1..100 with value twice the key into a fresh table
of default capacity 64 forces exactly one rebuild, which multiplies the
capacity by 4 (to 256, where the 50% post-growth bound holds); afterwards
the count is 100 and `at 57` returns 114 — for every hash function. -/
theorem C9_hundred_inserts (hash : Nat → Nat) :
    (((List.range 100).map (fun i => (i + 1, 2 * (i + 1)))).foldl insert
      (mkHashMap hash) : HashMap Nat Nat).size_ = 256 ∧
    (((List.range 100).map (fun i => (i + 1, 2 * (i + 1)))).foldl insert
      (mkHashMap hash) : HashMap Nat Nat).element_count_ = 100 ∧
    at? (((List.range 100).map (fun i => (i + 1, 2 * (i + 1)))).foldl insert
      (mkHashMap hash) : HashMap Nat Nat) 57 = some 114 := by
  have hsplit : ((List.range 100).map (fun i => (i + 1, 2 * (i + 1))) :
      List (Nat × Nat)) =
      ((List.range 52).map (fun i => (i + 1, 2 * (i + 1)))) ++
        (53, 106) ::
          ((List.range 47).map (fun i => (i + 54, 2 * (i + 54)))) := by
    decide
  obtain ⟨hsz, hct, hat⟩ := threePhase_spec hash
    ((List.range 52).map (fun i => (i + 1, 2 * (i + 1))))
    ((List.range 47).map (fun i => (i + 54, 2 * (i + 54)))) 53 106
    (by decide) (by decide) (by decide)
  rw [hsplit]
  exact ⟨hsz, hct, hat 57 114 (by decide)⟩

/-- C10: the capacity never decreases under any public operation — a
rebuild multiplies it by 4 — and `clear` removes every element while
leaving the capacity exactly as it was. -/
theorem C10_capacity_monotone (s : HashMap K V) (hr : Reachable s)
    (e : K × V) (k : K) :
    s.size_ ≤ (insert s e).size_ ∧
    (erase s k).size_ = s.size_ ∧
    s.size_ ≤ ((getOrInsert s k).1).size_ ∧
    (clear s).size_ = s.size_ ∧
    (clear s).element_count_ = 0 := by
  have hI := reachable_inv hr
  obtain ⟨hcI, hcs, hch, hcc⟩ := clear_spec hI
  refine ⟨?_, ?_, ?_, hcs, hcc⟩
  · obtain ⟨k₀, v₀⟩ := e
    by_cases hk : HasKey s k₀
    · rw [insert_mem_eq hI v₀ hk]
    · obtain ⟨_, _, _, _, hszc, hszn⟩ := insert_not_mem_spec hI k₀ v₀ hk
      by_cases hcool : s.element_count_ * 100 < 80 * s.size_
      · exact le_of_eq (hszc hcool).symm
      · rw [hszn hcool]
        omega
  · by_cases hk : HasKey s k
    · exact (erase_present_spec hI hk).2.1
    · rw [erase_absent hI k hk]
  · by_cases hk : HasKey s k
    · rw [getOrInsert_present hI hk]
    · rw [getOrInsert_absent_eq hI k hk]
      obtain ⟨_, _, _, _, hszc, hszn⟩ := insertElementF_spec 0 hI k default hk
      have hszc' : s.element_count_ * 100 < 80 * s.size_ →
          (InsertElementF 2 s k default).1.size_ = s.size_ := hszc
      have hszn' : ¬ (s.element_count_ * 100 < 80 * s.size_) →
          (InsertElementF 2 s k default).1.size_ = 4 * s.size_ := hszn
      by_cases hcool : s.element_count_ * 100 < 80 * s.size_
      · exact le_of_eq (hszc' hcool).symm
      · rw [hszn' hcool]
        omega

theorem C10_witness :
    Reachable (mkHashMap (fun x => x) : HashMap Nat Nat) ∧
    ((mkHashMap (fun x => x) : HashMap Nat Nat).size_ ≤
      (insert (mkHashMap (fun x => x) : HashMap Nat Nat) (1, 2)).size_ ∧
      (erase (mkHashMap (fun x => x) : HashMap Nat Nat) 3).size_ =
        (mkHashMap (fun x => x) : HashMap Nat Nat).size_ ∧
      (mkHashMap (fun x => x) : HashMap Nat Nat).size_ ≤
        ((getOrInsert (mkHashMap (fun x => x) : HashMap Nat Nat) 3).1).size_ ∧
      (clear (mkHashMap (fun x => x) : HashMap Nat Nat)).size_ =
        (mkHashMap (fun x => x) : HashMap Nat Nat).size_ ∧
      (clear (mkHashMap (fun x => x) : HashMap Nat Nat)).element_count_ =
        0) :=
  ⟨Reachable.fresh _,
    C10_capacity_monotone _ (Reachable.fresh (fun x => x)) (1, 2) 3⟩

end RobinHood.HashMap
